import Mathlib

/-!
Verification development for the pwnypack bytecode module
(src/pwnypack/bytecode.py): a version-parameterized Python bytecode
assembler/disassembler plus a static stack-depth analyzer.

The Python source is shallowly embedded below:
- Label objects (identity semantics) become allocation ids (Nat).
- The py_internals descriptor dictionary becomes the PyInternals structure.
- Byte strings become List Nat.
- Python dictionaries become association lists with shadowing on update
  (a fresh binding is prepended, lookup returns the first match, which is
  exactly the last write, matching dict assignment/lookup).
- Exceptions become error values; the unbounded while-retry loop of
  assemble and the recursive block walk of calculate_max_stack_depth take
  explicit fuel, with a distinguished out-of-fuel result.
-/

namespace Pwny

/-- A Label is used to define a label in a series of opcodes.  In Python it
is an empty object with identity equality; we realize identity by an
allocation id, so two labels are equal exactly when they are the same
allocation. -/
structure Label where
  id : Nat
deriving DecidableEq, Repr

/-- The argument of an Op: a plain integer operand or a Label (jump target).
Python's None argument is modelled by wrapping in Option at the use site. -/
inductive OpArgVal where
  | int (n : Int)
  | lbl (l : Label)
deriving DecidableEq, Repr

/-- A single bytecode operation: a mnemonic name and an optional argument
(none for opcodes without arguments, an int or a Label otherwise). -/
structure Op where
  name : String
  arg : Option OpArgVal
deriving DecidableEq, Repr

/-- An element of the symbolic instruction sequence: an Op or a Label. -/
inductive OpElem where
  | op (o : Op)
  | lbl (l : Label)
deriving DecidableEq, Repr

/-- The per-opcode stack effect used by calculate_max_stack_depth: either a
constant or a callable of the op's argument (Python: callable(effect)). -/
inductive StackEff where
  | const (n : Int)
  | fn (f : Option OpArgVal → Int)

/-- The instruction-set descriptor (Python: the py_internals dictionary).
opname maps opcode numbers to mnemonics, opmap is the reverse table
(Python raises KeyError for unknown names, hence Option). -/
structure PyInternals where
  opname : Nat → String
  opmap : String → Option Nat
  have_argument : Nat
  extended_arg : Nat
  hasjrel : List Nat
  hasjabs : List Nat
  stackeffect : String → Option StackEff
  stackeffect_traits : Nat

/-- hasjump = set(hasjrel) | set(hasjabs). -/
def PyInternals.hasjump (py : PyInternals) (c : Nat) : Bool :=
  py.hasjrel.contains c || py.hasjabs.contains c

/-- First-match association-list lookup, used for all embedded Python
dictionaries (updates prepend, so first match = most recent write). -/
def lookupA {α β : Type} [DecidableEq α] : List (α × β) → α → Option β
  | [], _ => none
  | (k, v) :: rest, k' => if k' = k then some v else lookupA rest k'

/-! ## Disassembler -/

/-- State of the disassembly scan: the pending extended-argument
accumulator, the fresh-label counter, the address-to-label memo table
(addr_labels) and the reversed list of (address, decoded op) pairs
(addr_ops; none marks an EXTENDED_ARG placeholder). -/
structure DisState where
  ext_arg : Nat
  nextLabel : Nat
  addr_labels : List (Nat × Label)
  addr_opsRev : List (Nat × Option Op)
deriving Repr, DecidableEq

/-- The byte-scanning loop of disassemble.  Returns none where the Python
code raises (truncated argument bytes, or shifting a non-integer pending
extended argument).  The address argument tracks the enumerate index of
the current opcode byte. -/
def disassembleCore (py : PyInternals) : List Nat → Nat → DisState → Option DisState
  | [], _, st => some st
  | op_code :: rest, op_addr, st =>
    if op_code ≥ py.have_argument then
      match rest with
      | a :: b :: rest2 =>
        let arg0 : Nat := a + b * 256 + st.ext_arg
        let arg1 : Nat := if py.hasjrel.contains op_code then arg0 + op_addr + 3 else arg0
        let isJump := py.hasjump op_code
        let (argLbl, st1) :=
          if isJump then
            match lookupA st.addr_labels arg1 with
            | some l => (some l, st)
            | none =>
              (some ⟨st.nextLabel⟩,
               { st with nextLabel := st.nextLabel + 1,
                         addr_labels := st.addr_labels ++ [(arg1, ⟨st.nextLabel⟩)] })
          else (none, st)
        let op_name := py.opname op_code
        if op_name = py.opname py.extended_arg then
          match argLbl with
          | some _ => none
          | none =>
            disassembleCore py rest2 (op_addr + 3)
              { st1 with ext_arg := arg1 <<< 16,
                         addr_opsRev := (op_addr, none) :: st1.addr_opsRev }
        else
          let argv : OpArgVal := match argLbl with
            | some l => .lbl l
            | none => .int arg1
          disassembleCore py rest2 (op_addr + 3)
            { st1 with ext_arg := 0,
                       addr_opsRev := (op_addr, some ⟨op_name, some argv⟩) :: st1.addr_opsRev }
      | _ => none
    else
      let op_name := py.opname op_code
      if op_name = py.opname py.extended_arg then none
      else
        disassembleCore py rest (op_addr + 1)
          { st with ext_arg := 0,
                    addr_opsRev := (op_addr, some ⟨op_name, none⟩) :: st.addr_opsRev }

/-- The final re-walk of disassemble: splice each memoized Label in
immediately before the instruction whose address it targets. -/
def spliceOps (addr_labels : List (Nat × Label)) : List (Nat × Option Op) → List OpElem
  | [] => []
  | (a, o?) :: rest =>
    (match lookupA addr_labels a with
     | some l => [OpElem.lbl l]
     | none => []) ++
    (match o? with
     | some o => [OpElem.op o]
     | none => []) ++
    spliceOps addr_labels rest

/-- disassemble: python bytecode to a series of Op and Label elements.
Returns none where the Python code raises. -/
def disassemble (code : List Nat) (py : PyInternals) : Option (List OpElem) :=
  (disassembleCore py code 0 ⟨0, 0, [], []⟩).map fun st =>
    spliceOps st.addr_labels st.addr_opsRev.reverse

/-! ## Assembler -/

/-- The distinct exception conditions raised by assemble.  The first five
are the explicit ValueError sanity checks, unknownOpcode is the KeyError
from opmap lookup, byteOutOfRange is the struct error that
six.int2byte raises on a byte outside 0..255. -/
inductive AsmErr where
  | requiresArg
  | shouldNotHaveArg
  | didNotExpectLabel
  | labelNotInList
  | expectedLabel
  | unknownOpcode
  | byteOutOfRange
deriving DecidableEq, Repr

/-- encode_op: a single opcode byte, or opcode plus 16-bit little-endian
argument.  Python computes op_arg & 255 and op_arg >> 8 (floor), and
six.int2byte raises when a value is outside 0..255. -/
def encode_op (op_code : Nat) (op_arg : Option Int) : Except AsmErr (List Nat) :=
  match op_arg with
  | none =>
    if op_code ≤ 255 then .ok [op_code] else .error .byteOutOfRange
  | some a =>
    let lo := a.emod 256
    let hi := a.fdiv 256
    if op_code ≤ 255 ∧ 0 ≤ hi ∧ hi ≤ 255 then .ok [op_code, lo.toNat, hi.toNat]
    else .error .byteOutOfRange

/-- State threaded through one assembly pass (and, for label_address,
across passes): reversed output bytes, the running address counter, the
Label-to-address dictionary, and the retry flag. -/
structure AsmState where
  outputRev : List Nat
  address : Nat
  label_address : List (Label × Nat)
  retry : Bool
deriving Repr, DecidableEq

/-- Decidable equality for Except results, so concrete step results can be
checked by decide. -/
instance {ε α : Type} [DecidableEq ε] [DecidableEq α] : DecidableEq (Except ε α) := fun x y =>
  match x, y with
  | .ok a, .ok b =>
    if h : a = b then .isTrue (by rw [h]) else .isFalse (by simp [h])
  | .error a, .error b =>
    if h : a = b then .isTrue (by rw [h]) else .isFalse (by simp [h])
  | .ok _, .error _ => .isFalse (by simp)
  | .error _, .ok _ => .isFalse (by simp)

/-- Python: op_arg not in ops, which compares the Label by identity against
every element of the list. -/
def labelInOps (l : Label) (ops : List OpElem) : Bool :=
  ops.any fun e => match e with
    | .lbl l' => l' = l
    | .op _ => false

/-- Lines 241-250 of assemble: emit a resolved argument, with an
extended-argument instruction first when the value needs more than 16
bits (op_arg >> 16 high part, op_arg & 65535 low part). -/
def emitArg (py : PyInternals) (st : AsmState) (op_code : Nat) (op_arg : Int) :
    Except AsmErr AsmState :=
  if op_arg ≥ 65536 then
    match encode_op py.extended_arg (some (op_arg.fdiv 65536)) with
    | .error e => .error e
    | .ok ext =>
      match encode_op op_code (some (op_arg.emod 65536)) with
      | .error e => .error e
      | .ok base =>
        .ok { st with outputRev := base.reverse ++ ext.reverse ++ st.outputRev,
                      address := st.address + 6 }
  else
    match encode_op op_code (some op_arg) with
    | .error e => .error e
    | .ok bs =>
      .ok { st with outputRev := bs.reverse ++ st.outputRev,
                    address := st.address + 3 }

/-- Processing a Label element: record the current address when it differs
from the stored one and mark the pass for retry. -/
def stepLbl (st : AsmState) (l : Label) : AsmState :=
  if lookupA st.label_address l = some st.address then st
  else { st with retry := true, label_address := (l, st.address) :: st.label_address }

/-- Processing an Op element: the sanity checks, label resolution (with
the size estimate when the label has not materialized), the relative-jump
fixup, and encoding. -/
def stepOp (py : PyInternals) (ops : List OpElem) (st : AsmState) (o : Op) :
    Except AsmErr AsmState :=
  match py.opmap o.name with
  | none => .error .unknownOpcode
  | some op_code =>
    match o.arg with
    | none =>
      if op_code ≥ py.have_argument then .error .requiresArg
      else
        match encode_op op_code none with
        | .error e => .error e
        | .ok bs =>
          .ok { st with outputRev := bs.reverse ++ st.outputRev,
                        address := st.address + 1 }
    | some a0 =>
      if op_code < py.have_argument then .error .shouldNotHaveArg
      else
        match a0 with
        | .lbl l =>
          if ¬ py.hasjump op_code then .error .didNotExpectLabel
          else if ¬ labelInOps l ops then .error .labelNotInList
          else
            match lookupA st.label_address l with
            | none =>
              if py.hasjabs.contains op_code ∧ st.address > 65535 then
                .ok { st with address := st.address + 6 }
              else
                .ok { st with address := st.address + 3 }
            | some addr =>
              let op_arg : Int :=
                if py.hasjrel.contains op_code then (addr : Int) - ((st.address : Int) + 3)
                else (addr : Int)
              emitArg py st op_code op_arg
        | .int n =>
          if py.hasjump op_code then .error .expectedLabel
          else emitArg py st op_code n

/-- One element of an assembly pass. -/
def asmStep (py : PyInternals) (ops : List OpElem) (st : AsmState) :
    OpElem → Except AsmErr AsmState
  | .lbl l => .ok (stepLbl st l)
  | .op o => stepOp py ops st o

/-- One full left-to-right assembly pass over the elements of ops. -/
def asmPass (py : PyInternals) (ops : List OpElem) :
    AsmState → List OpElem → Except AsmErr AsmState
  | st, [] => .ok st
  | st, e :: rest =>
    match asmStep py ops st e with
    | .error err => .error err
    | .ok st' => asmPass py ops st' rest

/-- Result of assemble: the output bytes, a raised exception, or fuel
exhaustion of the while-retry loop (the Python loop has no bound; a result
of outOfFuel for every fuel means the Python code does not terminate). -/
inductive AsmResult where
  | ok (out : List Nat)
  | err (e : AsmErr)
  | outOfFuel
deriving DecidableEq, Repr

/-- The while-retry fixed-point loop of assemble.  Each iteration resets
output, address and retry and runs a full pass; the label_address
dictionary persists across passes.  The bytes of the final
(retry-free) pass are the result. -/
def asmLoop (py : PyInternals) (ops : List OpElem) :
    Nat → List (Label × Nat) → AsmResult
  | 0, _ => .outOfFuel
  | fuel + 1, labels =>
    match asmPass py ops ⟨[], 0, labels, false⟩ ops with
    | .error e => .err e
    | .ok st =>
      if st.retry then asmLoop py ops fuel st.label_address
      else .ok st.outputRev.reverse

/-- assemble: a series of Op and Label elements back into bytecode, with
explicit fuel for the pass loop. -/
def assemble (ops : List OpElem) (py : PyInternals) (fuel : Nat) : AsmResult :=
  asmLoop py ops fuel []

/-- A fuel bound sufficient for the pass loop on well-behaved input
(proved below): label addresses are bounded by 6 * length, each retried
pass after the first strictly advances some label, and labels number at
most length. -/
def passBound (ops : List OpElem) : Nat :=
  6 * ops.length * ops.length + 3

/-- assemble with the canonical fuel bound. -/
def assembleRun (ops : List OpElem) (py : PyInternals) : AsmResult :=
  assemble ops py (passBound ops)

/-! ## Block partitioner -/

/-- blocks_from_ops: group the ops by label.  A block is its owning label
(none for the initial block) plus its ops.  Blocks are kept in creation
order; the Python next pointer of the block at index i is the block at
index i+1, and the Python dictionary lookup by label finds the last block
created with that label. -/
def blocksCore : List OpElem → List Op → Option Label → List (Option Label × List Op)
  | [], acc, lab => [(lab, acc.reverse)]
  | .lbl l :: rest, acc, lab => (lab, acc.reverse) :: blocksCore rest [] (some l)
  | .op o :: rest, acc, lab => blocksCore rest (o :: acc) lab

/-- blocks_from_ops (see blocksCore). -/
def blocks_from_ops (ops : List OpElem) : List (Option Label × List Op) :=
  blocksCore ops [] none

/-- Python dictionary lookup on the block map: index of the last block
whose key equals the given label (blocks[op] assignments overwrite). -/
def blockIdx (blocks : List (Option Label × List Op)) (key : Option Label) : Option Nat :=
  let rec go : List (Option Label × List Op) → Nat → Option Nat → Option Nat
    | [], _, best => best
    | (k, _) :: rest, i, best => go rest (i + 1) (if k = key then some i else best)
  go blocks 0 none

/-! ## Stack-depth analyzer -/

/-- Result of the recursive walk: the running maximum and the transient
per-block marks (seen flag, startdepth), or a raised exception (fail), or
fuel exhaustion of the nested recursion. -/
inductive WRes where
  | done (max_depth : Int) (marks : List (Bool × Int))
  | fail
  | fuelOut
deriving DecidableEq, Repr

/-- Result of iterating one block's ops: fall through to the next block
(cont) or stop because of an unconditional jump (broke), carrying the
depth, running max and marks. -/
inductive WOps where
  | cont (depth : Int) (max_depth : Int) (marks : List (Bool × Int))
  | broke (max_depth : Int) (marks : List (Bool × Int))
  | fail
  | fuelOut
deriving DecidableEq, Repr

/-- The stack effect of one op: the table value, applied to op.arg when
callable. -/
def effOf (se : StackEff) (arg : Option OpArgVal) : Int :=
  match se with
  | .const n => n
  | .fn f => f arg

/-- Python: if a > b then b is replaced by a (the running-maximum update). -/
def maxI (a b : Int) : Int :=
  if a > b then a else b

/-- The trait-1 branch-target corrections of the walk: FOR_ITER's target
sees two fewer values; SETUP_FINALLY / SETUP_EXCEPT's target sees three
more (also folded into the running maximum). -/
def jumpAdjust (py : PyInternals) (name : String) (target0 max1 : Int) : Int × Int :=
  if py.stackeffect_traits &&& 1 ≠ 0 then
    if name = "FOR_ITER" then (target0 - 2, max1)
    else if name = "SETUP_FINALLY" ∨ name = "SETUP_EXCEPT" then
      (target0 + 3, maxI (target0 + 3) max1)
    else (target0, max1)
  else (target0, max1)

/-- The trait-2 fall-through correction of the walk: JUMP_IF_TRUE_OR_POP /
JUMP_IF_FALSE_OR_POP pop one value on the non-branch path. -/
def fallAdjust (py : PyInternals) (name : String) (depth1 : Int) : Int :=
  if py.stackeffect_traits &&& 2 ≠ 0 then
    if name = "JUMP_IF_TRUE_OR_POP" ∨ name = "JUMP_IF_FALSE_OR_POP" then depth1 - 1
    else depth1
  else depth1

mutual

/-- The recursive walk of calculate_max_stack_depth over one block: prune
when the block is seen or was entered at least as deep, otherwise mark,
scan the ops, walk the fall-through successor unless the scan broke, and
unmark.  Fuel decreases on every recursive call (the Python recursion is
bounded only by the visited marks; a sufficient fuel is proved below). -/
def walkB (py : PyInternals) (blocks : List (Option Label × List Op)) :
    Nat → Nat → Int → Int → List (Bool × Int) → WRes
  | 0, _, _, _, _ => .fuelOut
  | fuel + 1, idx, depth, max_depth, marks =>
    match blocks.get? idx, marks.get? idx with
    | some (_, ops), some (seen, startdepth) =>
      if seen ∨ startdepth ≥ depth then .done max_depth marks
      else
        match walkOps py blocks fuel ops idx depth max_depth
            (marks.set idx (true, depth)) with
        | .fail => .fail
        | .fuelOut => .fuelOut
        | .broke max1 marks1 =>
          match marks1.get? idx with
          | some (_, sd1) => .done max1 (marks1.set idx (false, sd1))
          | none => .fail
        | .cont depth1 max1 marks1 =>
          if idx + 1 < blocks.length then
            match walkB py blocks fuel (idx + 1) depth1 max1 marks1 with
            | .done max2 marks2 =>
              match marks2.get? idx with
              | some (_, sd2) => .done max2 (marks2.set idx (false, sd2))
              | none => .fail
            | .fail => .fail
            | .fuelOut => .fuelOut
          else
            match marks1.get? idx with
            | some (_, sd1) => .done max1 (marks1.set idx (false, sd1))
            | none => .fail
    | _, _ => .fail
termination_by structural fuel => fuel

/-- The for-loop over a block's ops inside walk: apply each op's stack
effect, recurse into jump targets (with the trait-dependent corrections
for FOR_ITER, SETUP_FINALLY/SETUP_EXCEPT and JUMP_IF_*_OR_POP), and break
after an unconditional JUMP_ABSOLUTE or JUMP_FORWARD. -/
def walkOps (py : PyInternals) (blocks : List (Option Label × List Op)) :
    Nat → List Op → Nat → Int → Int → List (Bool × Int) → WOps
  | _, [], _, depth, max_depth, marks => .cont depth max_depth marks
  | 0, _ :: _, _, _, _, _ => .fuelOut
  | fuel + 1, o :: rest, idx, depth, max_depth, marks =>
    match py.stackeffect o.name with
    | none => .fail
    | some se =>
      match py.opmap o.name with
      | none => .fail
      | some op_code =>
        if py.hasjrel.contains op_code ∨ py.hasjabs.contains op_code then
          match o.arg with
          | some (.lbl l) =>
            match blockIdx blocks (some l) with
            | none => .fail
            | some tidx =>
              match walkB py blocks fuel tidx
                  (jumpAdjust py o.name (depth + effOf se o.arg)
                    (maxI (depth + effOf se o.arg) max_depth)).1
                  (jumpAdjust py o.name (depth + effOf se o.arg)
                    (maxI (depth + effOf se o.arg) max_depth)).2 marks with
              | .done max3 marks3 =>
                if o.name = "JUMP_ABSOLUTE" ∨ o.name = "JUMP_FORWARD" then
                  .broke max3 marks3
                else
                  walkOps py blocks fuel rest idx
                    (fallAdjust py o.name (depth + effOf se o.arg)) max3 marks3
              | .fail => .fail
              | .fuelOut => .fuelOut
          | _ => .fail
        else
          if o.name = "JUMP_ABSOLUTE" ∨ o.name = "JUMP_FORWARD" then
            .broke (maxI (depth + effOf se o.arg) max_depth) marks
          else
            walkOps py blocks fuel rest idx (depth + effOf se o.arg)
              (maxI (depth + effOf se o.arg) max_depth) marks
termination_by structural fuel => fuel

end

/-- Result of calculate_max_stack_depth: the depth, a raised exception, or
fuel exhaustion of the walk. -/
inductive DepthRes where
  | val (d : Int)
  | err
  | fuelOut
deriving DecidableEq, Repr

/-- The total number of ops distributed over the blocks (used only to fix
a sufficient walk fuel). -/
def blocksOpsLen (blocks : List (Option Label × List Op)) : Nat :=
  (blocks.map fun b => b.2.length).sum

/-- A walk fuel sufficient for any input (proved below): the recursion
nests at most once per (then-marked) block, and between nested calls at
most one block's ops are scanned. -/
def walkFuel (blocks : List (Option Label × List Op)) : Nat :=
  blocks.length * (blocksOpsLen blocks + 2) + 1

/-- calculate_max_stack_depth: partition into blocks, reset the marks
(seen = false, startdepth = -1) and walk from the entry block at depth 0. -/
def calculate_max_stack_depth (ops : List OpElem) (py : PyInternals) : DepthRes :=
  let blocks := blocks_from_ops ops
  let marks : List (Bool × Int) := List.replicate blocks.length (false, -1)
  match walkB py blocks (walkFuel blocks) 0 0 0 marks with
  | .done d _ => .val d
  | .fail => .err
  | .fuelOut => .fuelOut

/-! ## CodeObject -/

/-- The CodeObject structure: the executable-unit metadata record.  All
fields other than co_code and co_stacksize are opaque passthrough data
for the assemble method. -/
structure CodeObject where
  co_argcount : Nat
  co_kwonlyargcount : Nat
  co_nlocals : Nat
  co_stacksize : Int
  co_flags : Nat
  co_code : List Nat
  co_consts : List String
  co_names : List String
  co_varnames : List String
  co_filename : String
  co_name : String
  co_firstlineno : Nat
  co_lnotab : List Nat
  co_freevars : List String
  co_cellvars : List String
  py_internals : PyInternals

/-- CodeObject.assemble: choose the descriptor (storing an explicitly
given one), then set co_code to the assembled bytes and co_stacksize to
the computed maximum stack depth.  Returns none when the underlying
assemble or depth walk raises (in Python the exception propagates). -/
def CodeObject.assemble (co : CodeObject) (ops : List OpElem)
    (py? : Option PyInternals) : Option CodeObject :=
  let py := py?.getD co.py_internals
  let co1 := match py? with
    | some p => { co with py_internals := p }
    | none => co
  match assembleRun ops py with
  | .ok code =>
    match calculate_max_stack_depth ops py with
    | .val d => some { co1 with co_code := code, co_stacksize := d }
    | _ => none
  | _ => none

/-! ## A concrete instruction-set descriptor

A small CPython-2.7-style descriptor (a subset of the opcode table, with
the authentic numbering, jump sets, argument threshold and extended
argument opcode) used as the external py_internals value in concrete
witnesses and counterexamples. -/

/-- Mnemonic table of the test descriptor. -/
def opname27 : Nat → String := fun c =>
  match c with
  | 1 => "POP_TOP"
  | 4 => "DUP_TOP"
  | 9 => "NOP"
  | 83 => "RETURN_VALUE"
  | 93 => "FOR_ITER"
  | 100 => "LOAD_CONST"
  | 110 => "JUMP_FORWARD"
  | 113 => "JUMP_ABSOLUTE"
  | 114 => "POP_JUMP_IF_FALSE"
  | 120 => "SETUP_LOOP"
  | 124 => "LOAD_FAST"
  | 145 => "EXTENDED_ARG"
  | _ => "<invalid>"

/-- Reverse opcode table of the test descriptor. -/
def opmap27 : String → Option Nat := fun s =>
  match s with
  | "POP_TOP" => some 1
  | "DUP_TOP" => some 4
  | "NOP" => some 9
  | "RETURN_VALUE" => some 83
  | "FOR_ITER" => some 93
  | "LOAD_CONST" => some 100
  | "JUMP_FORWARD" => some 110
  | "JUMP_ABSOLUTE" => some 113
  | "POP_JUMP_IF_FALSE" => some 114
  | "SETUP_LOOP" => some 120
  | "LOAD_FAST" => some 124
  | "EXTENDED_ARG" => some 145
  | _ => none

/-- Stack-effect table of the test descriptor. -/
def stackeffect27 : String → Option StackEff := fun s =>
  match s with
  | "POP_TOP" => some (.const (-1))
  | "DUP_TOP" => some (.const 1)
  | "NOP" => some (.const 0)
  | "RETURN_VALUE" => some (.const (-1))
  | "FOR_ITER" => some (.const 1)
  | "LOAD_CONST" => some (.const 1)
  | "JUMP_FORWARD" => some (.const 0)
  | "JUMP_ABSOLUTE" => some (.const 0)
  | "POP_JUMP_IF_FALSE" => some (.const (-1))
  | "SETUP_LOOP" => some (.const 0)
  | "LOAD_FAST" => some (.const 1)
  | "EXTENDED_ARG" => some (.const 0)
  | _ => none

/-- The test descriptor. -/
def py27 : PyInternals where
  opname := opname27
  opmap := opmap27
  have_argument := 90
  extended_arg := 145
  hasjrel := [93, 110, 120]
  hasjabs := [113, 114]
  stackeffect := stackeffect27
  stackeffect_traits := 1

/-! ## Structural violation predicate (for the error-handling claims)

The five structural mismatch conditions checked by assemble's explicit
sanity checks, as a predicate of one sequence element. -/

/-- An element exhibits one of the five structural mismatches: an argument
on an opcode below the have_argument threshold, a missing argument on an
opcode at or above it, a non-Label argument on a jump opcode, a Label
argument on a non-jump opcode, or a Label argument that does not occur as
an element of the sequence. -/
def violatesStructural (py : PyInternals) (ops : List OpElem) : OpElem → Bool
  | .lbl _ => false
  | .op o =>
    match py.opmap o.name with
    | none => false
    | some op_code =>
      match o.arg with
      | none => decide (op_code ≥ py.have_argument)
      | some (.int _) => decide (op_code < py.have_argument) || py.hasjump op_code
      | some (.lbl l) =>
        decide (op_code < py.have_argument) || !py.hasjump op_code || !labelInOps l ops

/-! ## Auxiliary notions used by the theorems -/

/-- The seen flags of the walk marks. -/
def seenMap (marks : List (Bool × Int)) : List Bool :=
  marks.map Prod.fst

/-- The number of blocks not currently marked seen. -/
def unseenCount (marks : List (Bool × Int)) : Nat :=
  (seenMap marks).count false

/-- The Labels occurring as elements of a symbolic sequence. -/
def labelElems (ops : List OpElem) : List Label :=
  ops.filterMap fun e => match e with
    | .lbl l => some l
    | .op _ => none

/-- The label_address dictionary after n complete assembly passes (the
dictionary persists across passes; output, address and retry are reset at
the start of each pass, exactly as in the while-retry loop). -/
def passN (py : PyInternals) (ops : List OpElem) : Nat → Except AsmErr (List (Label × Nat))
  | 0 => .ok []
  | n + 1 =>
    match passN py ops n with
    | .error e => .error e
    | .ok m =>
      match asmPass py ops ⟨[], 0, m, false⟩ ops with
      | .error e => .error e
      | .ok st => .ok st.label_address

/-- The addr_ops entries produced by a run of n one-byte NOP instructions
starting at the given address, newest first (the accumulation order of
disassembleCore). -/
def nopsRev : Nat → Nat → List (Nat × Option Op)
  | 0, _ => []
  | n + 1, addr => nopsRev n (addr + 1) ++ [(addr, some ⟨"NOP", none⟩)]

/-- The same entries in scan order (oldest first). -/
def nopsAsc : Nat → Nat → List (Nat × Option Op)
  | 0, _ => []
  | n + 1, addr => (addr, some ⟨"NOP", none⟩) :: nopsAsc n (addr + 1)

/-- Monotone relation between two label dictionaries: every recorded
address grows (or stays) from one pass to the next, in steps that are
multiples of 3. -/
def MapRel (m m2 : List (Label × Nat)) : Prop :=
  ∀ l v, lookupA m l = some v →
    ∃ v2, lookupA m2 l = some v2 ∧ v ≤ v2 ∧ v2 % 3 = v % 3

/-- The lockstep invariant between the mid-pass states of two consecutive
assembly passes over the same element list.  M0 is the final dictionary of
the earlier pass (the initial dictionary of the later pass). -/
def PassRel (M0 : List (Label × Nat)) (ps cs : AsmState) : Prop :=
  ps.address ≤ cs.address ∧
  cs.address % 3 = ps.address % 3 ∧
  MapRel ps.label_address cs.label_address ∧
  (∀ l, lookupA ps.label_address l = none →
    lookupA cs.label_address l = lookupA M0 l)

/-- The termination measure of the while-retry loop: the sum, over the
Label elements of the sequence, of the successor of the recorded address
(0 when unrecorded). -/
def mapScore (ops : List OpElem) (m : List (Label × Nat)) : Nat :=
  ((labelElems ops).map fun l =>
    match lookupA m l with
    | none => 0
    | some v => v + 1).sum

/-- A pass-count bound sufficient for the while-retry loop on sequences
without duplicate Label elements. -/
def c2Bound (ops : List OpElem) : Nat :=
  ops.length * (6 * ops.length + 1) + 1

/-- A label dictionary reachable by the pass loop: empty, or the final
dictionary of an ok pass whose own initial dictionary it dominates. -/
def GoodMap (py : PyInternals) (ops : List OpElem) (m : List (Label × Nat)) : Prop :=
  m = [] ∨ ∃ mp st, MapRel mp m ∧
    asmPass py ops ⟨[], 0, mp, false⟩ ops = .ok st ∧ st.label_address = m

/-- All recorded addresses bounded by the total emitted size bound. -/
def BddMap (ops : List OpElem) (m : List (Label × Nat)) : Prop :=
  ∀ l v, lookupA m l = some v → v ≤ 6 * ops.length

/-- Invariants of the disassembly scan state: the memo table has distinct
target addresses and distinct labels whose ids are below the fresh
counter, the decoded entries have distinct addresses below the scan
address, and every decoded Label argument is governed by the memo
table. -/
def GoodDis (addr : Nat) (st : DisState) : Prop :=
  (st.addr_labels.map Prod.fst).Nodup ∧
  (st.addr_labels.map Prod.snd).Nodup ∧
  (∀ p ∈ st.addr_labels, p.2.id < st.nextLabel) ∧
  (st.addr_opsRev.map Prod.fst).Nodup ∧
  (∀ a ∈ st.addr_opsRev.map Prod.fst, a < addr) ∧
  (∀ p ∈ st.addr_opsRev, ∀ o : Op, p.2 = some o → ∀ l : Label,
    o.arg = some (OpArgVal.lbl l) → ∃ t, (t, l) ∈ st.addr_labels)

/-! ## Concrete inputs used by witnesses and counterexamples -/

/-- A large bytecode input whose forward relative jump needs an
extended-argument prefix: EXTENDED_ARG 1, JUMP_FORWARD 0 (absolute target
65536 + 3 + 3 = 65542), 65536 NOP bytes, and a final NOP at address 65542
so the jump target is a decoded instruction. -/
def bigB : List Nat :=
  145 :: 1 :: 0 :: 110 :: 0 :: 0 :: (List.replicate 65536 9 ++ [9])

/-- The disassembly of bigB (established below): the merged jump op, the
NOP run, and the target label spliced before the final NOP. -/
def bigOps : List OpElem :=
  .op ⟨"JUMP_FORWARD", some (.lbl ⟨0⟩)⟩ ::
    (List.replicate 65536 (.op ⟨"NOP", none⟩) ++ [.lbl ⟨0⟩, .op ⟨"NOP", none⟩])

/-- The bytes assemble actually produces from bigOps (established below):
the encoded relative argument is 65539 (byte 4 is 3), not the original
65536 (byte 4 was 0). -/
def bigOut : List Nat :=
  145 :: 1 :: 0 :: 110 :: 3 :: 0 :: (List.replicate 65536 9 ++ [9])

/-- A concrete CodeObject used to witness the frame effect of the
assemble method. -/
def co9 : CodeObject where
  co_argcount := 1
  co_kwonlyargcount := 0
  co_nlocals := 2
  co_stacksize := 7
  co_flags := 67
  co_code := [124, 0, 0, 83]
  co_consts := ["None"]
  co_names := ["x"]
  co_varnames := ["a", "b"]
  co_filename := "f.py"
  co_name := "f"
  co_firstlineno := 12
  co_lnotab := [0, 1]
  co_freevars := ["u"]
  co_cellvars := ["v"]
  py_internals := py27

/-! # Theorems -/

/-! ## C5: extended-argument encoding -/

/-- C5 counterexample: the claim says a resolved instruction whose final
argument needs more than 16 bits occupies 5 bytes of output.  Assembling
the single instruction LOAD_CONST 65536 produces EXTENDED_ARG 1 followed
by LOAD_CONST 0, which is 6 bytes, not 5. -/
theorem c5_counterexample :
    assembleRun [.op ⟨"LOAD_CONST", some (.int 65536)⟩] py27 =
      .ok [145, 1, 0, 100, 0, 0] ∧
    ([145, 1, 0, 100, 0, 0] : List Nat).length ≠ 5 := by
  decide

/-- C5 (amended): when assemble encodes a resolved instruction whose final
argument value needs more than 16 bits (and fits 32), it first emits the
extended-argument opcode carrying the high 16 bits and then the base
opcode carrying the low 16 bits, advancing the address by 6: the logical
instruction occupies 6 bytes of output (not 5). -/
theorem c5_extended_arg_six_bytes (py : PyInternals) (st : AsmState) (op_code : Nat)
    (op_arg : Int) (h1 : 65536 ≤ op_arg) (h2 : op_arg < 4294967296)
    (hc : op_code ≤ 255) (he : py.extended_arg ≤ 255) :
    emitArg py st op_code op_arg =
      .ok { st with
            outputRev :=
              [((op_arg.emod 65536).fdiv 256).toNat, ((op_arg.emod 65536).emod 256).toNat,
               op_code,
               ((op_arg.fdiv 65536).fdiv 256).toNat, ((op_arg.fdiv 65536).emod 256).toNat,
               py.extended_arg] ++ st.outputRev,
            address := st.address + 6 } := by
  have hq : op_arg.fdiv 65536 = op_arg / 65536 := Int.fdiv_eq_ediv _ (by norm_num)
  have hr : (op_arg.emod 65536).fdiv 256 = op_arg.emod 65536 / 256 :=
    Int.fdiv_eq_ediv _ (by norm_num)
  have hqf : (op_arg.fdiv 65536).fdiv 256 = op_arg / 65536 / 256 := by
    rw [hq]; exact Int.fdiv_eq_ediv _ (by norm_num)
  have hm0 : (0 : Int) ≤ op_arg.emod 65536 := Int.emod_nonneg _ (by norm_num)
  have hm1 : op_arg.emod 65536 < 65536 := Int.emod_lt_of_pos _ (by norm_num)
  have hb1 : (0 : Int) ≤ op_arg / 65536 / 256 ∧ op_arg / 65536 / 256 ≤ 255 := by omega
  have hb2 : (0 : Int) ≤ op_arg.emod 65536 / 256 ∧ op_arg.emod 65536 / 256 ≤ 255 := by
    omega
  rw [emitArg, if_pos h1, encode_op, hqf]
  rw [if_pos ⟨he, hb1.1, hb1.2⟩]
  rw [encode_op, hr, if_pos ⟨hc, hb2.1, hb2.2⟩]
  simp [hqf, hr]

/-- C5 witness: the amended encoding theorem applied at the concrete
argument 65537 with opcode LOAD_CONST of the test descriptor. -/
theorem c5_witness :
    emitArg py27 ⟨[], 0, [], false⟩ 100 65537 =
      .ok ⟨[0, 1, 100, 0, 1, 145], 6, [], false⟩ := by
  have h := c5_extended_arg_six_bytes py27 ⟨[], 0, [], false⟩ 100 65537
    (by decide) (by decide) (by decide) (by decide)
  simpa using h

/-! ## C7 (counterexample part): a jump target past the end of the byte
stream yields a Label that is never spliced -/

/-- C7 counterexample: the claim states that for every bytecode input the
Label carried by a jump appears exactly once as an element of the output.
Disassembling JUMP_ABSOLUTE 9 (a 3-byte stream, so address 9 has no
instruction) yields a jump op carrying a Label that does not occur in the
output at all. -/
theorem c7_counterexample :
    disassemble [113, 9, 0] py27 = some [.op ⟨"JUMP_ABSOLUTE", some (.lbl ⟨0⟩)⟩] ∧
    (OpElem.lbl ⟨0⟩) ∉ ([.op ⟨"JUMP_ABSOLUTE", some (.lbl ⟨0⟩)⟩] : List OpElem) := by
  decide

/-! ## C10: disassembling a dangling jump target breaks reassembly -/

/-- C10: there is a bytecode input containing a jump whose target address
has no decoded instruction (here JUMP_FORWARD 1 in a 4-byte stream:
target 4 is past the end), for which disassemble returns a sequence whose
jump Op carries a Label that does not occur as an element, and assembling
that sequence raises the label-not-in-sequence error. -/
theorem c10_dangling_target :
    disassemble [110, 1, 0, 9] py27 =
      some [.op ⟨"JUMP_FORWARD", some (.lbl ⟨0⟩)⟩, .op ⟨"NOP", none⟩] ∧
    (OpElem.lbl ⟨0⟩) ∉
      ([.op ⟨"JUMP_FORWARD", some (.lbl ⟨0⟩)⟩, .op ⟨"NOP", none⟩] : List OpElem) ∧
    assembleRun [.op ⟨"JUMP_FORWARD", some (.lbl ⟨0⟩)⟩, .op ⟨"NOP", none⟩] py27 =
      .err .labelNotInList := by
  decide

/-! ## C6: the relative-jump adjustments are not mutually inverse when an
extended-argument prefix is emitted -/

/-- C6: the claim states that disassemble's target = argument + address
just past the 3-byte instruction and assemble's argument = target minus
the address just past the emitted instruction are mutually inverse,
including for jumps needing an extended-argument prefix.  The code is
not: assembling a relative jump from address 0 to target 65539 emits
EXTENDED_ARG 1, FOR_ITER 0 (argument 65536 = 65539 - (0 + 3), computed
before the 3-byte prefix is counted), and disassembling those 6 bytes
recovers target 65542 = 65536 + 3 + 3, not 65539. -/
theorem c6_relative_ext_divergence :
    asmStep py27 [.op ⟨"FOR_ITER", some (.lbl ⟨0⟩)⟩, .lbl ⟨0⟩]
      ⟨[], 0, [(⟨0⟩, 65539)], false⟩ (.op ⟨"FOR_ITER", some (.lbl ⟨0⟩)⟩) =
      .ok ⟨[0, 0, 93, 0, 1, 145], 6, [(⟨0⟩, 65539)], false⟩ ∧
    ([0, 0, 93, 0, 1, 145] : List Nat).reverse = [145, 1, 0, 93, 0, 0] ∧
    (disassembleCore py27 [145, 1, 0, 93, 0, 0] 0 ⟨0, 0, [], []⟩).map DisState.addr_labels =
      some [(65542, ⟨0⟩)] ∧
    (65542 : Nat) ≠ 65539 := by
  decide

/-! ## C4: structural error conditions -/

/-- Each of the five structural mismatches makes the per-element step of
assemble raise an error instead of emitting that instruction's bytes. -/
theorem violates_step_error (py : PyInternals) (ops : List OpElem) (st : AsmState)
    (e : OpElem) (h : violatesStructural py ops e = true) :
    ∃ er, asmStep py ops st e = .error er := by
  cases e with
  | lbl l => simp [violatesStructural] at h
  | op o =>
    rw [violatesStructural] at h
    cases hm : py.opmap o.name with
    | none => exact ⟨.unknownOpcode, by simp [asmStep, stepOp, hm]⟩
    | some c =>
      rw [hm] at h
      cases ha : o.arg with
      | none =>
        rw [ha] at h
        simp only [decide_eq_true_eq] at h
        exact ⟨.requiresArg, by simp [asmStep, stepOp, hm, ha, h]⟩
      | some a0 =>
        rw [ha] at h
        cases a0 with
        | int n =>
          simp only [Bool.or_eq_true, decide_eq_true_eq] at h
          by_cases hlt : c < py.have_argument
          · exact ⟨.shouldNotHaveArg, by simp [asmStep, stepOp, hm, ha, hlt]⟩
          · have hj : py.hasjump c = true := by
              rcases h with h | h
              · omega
              · exact h
            exact ⟨.expectedLabel, by simp [asmStep, stepOp, hm, ha, hlt, hj]⟩
        | lbl l =>
          simp only [Bool.or_eq_true, decide_eq_true_eq, Bool.not_eq_true'] at h
          by_cases hlt : c < py.have_argument
          · exact ⟨.shouldNotHaveArg, by simp [asmStep, stepOp, hm, ha, hlt]⟩
          · by_cases hj : py.hasjump c = true
            · have hni : labelInOps l ops = false := by
                rcases h with (h | h) | h
                · omega
                · exact absurd h (by simp [hj])
                · exact h
              exact ⟨.labelNotInList, by simp [asmStep, stepOp, hm, ha, hlt, hj, hni]⟩
            · have hj' : py.hasjump c = false := by
                cases hb : py.hasjump c
                · rfl
                · exact absurd hb hj
              exact ⟨.didNotExpectLabel, by simp [asmStep, stepOp, hm, ha, hlt, hj']⟩

/-- A pass over a list containing a structurally violating element raises
an error. -/
theorem pass_err_of_violates (py : PyInternals) (ops : List OpElem) :
    ∀ (rest : List OpElem) (st : AsmState),
      (∃ e ∈ rest, violatesStructural py ops e = true) →
      ∃ er, asmPass py ops st rest = .error er := by
  intro rest
  induction rest with
  | nil => rintro st ⟨e, he, _⟩; cases he
  | cons e0 rest ih =>
    rintro st ⟨e, he, hv⟩
    rcases List.mem_cons.mp he with rfl | hmem
    · obtain ⟨er, her⟩ := violates_step_error py ops st e hv
      exact ⟨er, by rw [asmPass, her]⟩
    · rw [asmPass]
      cases hs : asmStep py ops st e0 with
      | error er => exact ⟨er, rfl⟩
      | ok st' => exact ih st' ⟨e, hmem, hv⟩

/-- C4 (amended): whenever the input sequence contains one of the five
structural mismatches (argument on a below-threshold opcode, missing
argument on an at-or-above-threshold opcode, non-Label argument on a jump
opcode, Label argument on a non-jump opcode, or a Label argument absent
from the sequence), assemble raises an error, and the offending element's
step raises before any bytes of that instruction are emitted.  The
converse direction of the original claim is false (see the
counterexample): other inputs also raise. -/
theorem c4_structural_rejection (py : PyInternals) (ops : List OpElem) (fuel : Nat)
    (h : ∃ e ∈ ops, violatesStructural py ops e = true) (hf : 1 ≤ fuel) :
    (∃ er, assemble ops py fuel = .err er) ∧
    (∀ (st : AsmState) (e : OpElem), violatesStructural py ops e = true →
      ∃ er, asmStep py ops st e = .error er) := by
  constructor
  · obtain ⟨fuel', rfl⟩ : ∃ k, fuel = k + 1 := ⟨fuel - 1, by omega⟩
    obtain ⟨er, her⟩ := pass_err_of_violates py ops ops ⟨[], 0, [], false⟩ h
    exact ⟨er, by rw [assemble, asmLoop, her]⟩
  · intro st e hv
    exact violates_step_error py ops st e hv

/-- C4 witness: the structural-rejection theorem applied to a sequence
whose jump op carries a Label absent from the sequence. -/
theorem c4_witness :
    ∃ er, assemble [.op ⟨"JUMP_ABSOLUTE", some (.lbl ⟨0⟩)⟩] py27 9 = .err er :=
  (c4_structural_rejection py27 [.op ⟨"JUMP_ABSOLUTE", some (.lbl ⟨0⟩)⟩] 9
    ⟨.op ⟨"JUMP_ABSOLUTE", some (.lbl ⟨0⟩)⟩, by decide, by decide⟩ (by decide)).1

/-- C4 counterexample: the claim says assemble raises exactly when one of
the five structural conditions holds.  LOAD_CONST with integer argument
-1 violates none of the five conditions, yet assemble raises (the encoder
rejects the negative byte, as six.int2byte does). -/
theorem c4_counterexample :
    assembleRun [.op ⟨"LOAD_CONST", some (.int (-1))⟩] py27 = .err .byteOutOfRange ∧
    violatesStructural py27 [.op ⟨"LOAD_CONST", some (.int (-1))⟩]
      (.op ⟨"LOAD_CONST", some (.int (-1))⟩) = false := by
  decide

/-! ## C2 (counterexample part): the fixed-point loop need not terminate -/

/-- When the same Label occurs as an element at two different addresses,
every pass records both addresses in turn and flags a retry, forever. -/
theorem c2_aux : ∀ (fuel : Nat) (m : List (Label × Nat)),
    lookupA m ⟨0⟩ = some 1 →
    asmLoop py27 [.lbl ⟨0⟩, .op ⟨"NOP", none⟩, .lbl ⟨0⟩] fuel m = .outOfFuel := by
  intro fuel
  induction fuel with
  | zero => intro m _; rfl
  | succ n ih =>
    intro m h
    have hpass : asmPass py27 [.lbl ⟨0⟩, .op ⟨"NOP", none⟩, .lbl ⟨0⟩]
        ⟨[], 0, m, false⟩ [.lbl ⟨0⟩, .op ⟨"NOP", none⟩, .lbl ⟨0⟩] =
        .ok ⟨[9], 1, (⟨0⟩, 1) :: (⟨0⟩, 0) :: m, true⟩ := by
      simp [asmPass, asmStep, stepLbl, stepOp, encode_op, lookupA, h, py27, opmap27]
    rw [asmLoop, hpass]
    exact ih _ (by simp [lookupA])

/-- C2 counterexample: the claim asserts termination of the pass loop for
every sequence satisfying the structural invariant.  The sequence
Label L, NOP, Label L (the same label as an element at addresses 0 and 1;
no Op uses any label, so the invariant holds vacuously) makes the loop
run forever: for no fuel does it produce a result. -/
theorem c2_counterexample :
    ¬ ∃ fuel : Nat,
      assemble [.lbl ⟨0⟩, .op ⟨"NOP", none⟩, .lbl ⟨0⟩] py27 fuel ≠ .outOfFuel := by
  rintro ⟨fuel, hne⟩
  apply hne
  cases fuel with
  | zero => rfl
  | succ n =>
    have hpass : asmPass py27 [.lbl ⟨0⟩, .op ⟨"NOP", none⟩, .lbl ⟨0⟩]
        ⟨[], 0, [], false⟩ [.lbl ⟨0⟩, .op ⟨"NOP", none⟩, .lbl ⟨0⟩] =
        .ok ⟨[9], 1, (⟨0⟩, 1) :: (⟨0⟩, 0) :: [], true⟩ := by decide
    rw [assemble, asmLoop, hpass]
    exact c2_aux n _ (by simp [lookupA])

/-! ## C8: termination of the stack-depth walk -/

/-- Setting a marks entry replaces the corresponding seen flag. -/
theorem seenMap_set (marks : List (Bool × Int)) (idx : Nat) (p : Bool × Int) :
    seenMap (marks.set idx p) = (seenMap marks).set idx p.1 := by
  simp [seenMap, List.map_set]

/-- seenMap preserves length. -/
theorem seenMap_length (marks : List (Bool × Int)) :
    (seenMap marks).length = marks.length := by
  simp [seenMap]

/-- Marking an unseen entry seen decreases the unseen count by one. -/
theorem count_false_set_true (bs : List Bool) (i : Nat) (h : bs.get? i = some false) :
    (bs.set i true).count false + 1 = bs.count false := by
  induction bs generalizing i with
  | nil => simp at h
  | cons b rest ih =>
    cases i with
    | zero => simp at h; subst h; simp [List.count_cons]
    | succ j =>
      simp only [List.get?_cons_succ] at h
      have := ih j h
      simp [List.count_cons]
      omega

/-- Writing back the value already stored leaves the list unchanged. -/
theorem set_get_same (bs : List Bool) (i : Nat) (b : Bool) (h : bs.get? i = some b) :
    bs.set i b = bs := by
  induction bs generalizing i with
  | nil => rfl
  | cons x rest ih =>
    cases i with
    | zero => simp at h; subst h; rfl
    | succ j =>
      simp only [List.get?_cons_succ] at h
      simp [ih j h]

/-- The ops of any block are counted in blocksOpsLen. -/
theorem block_ops_le (blocks : List (Option Label × List Op)) (idx : Nat)
    (lab : Option Label) (ops : List Op) (h : blocks.get? idx = some (lab, ops)) :
    ops.length ≤ blocksOpsLen blocks := by
  have hmem : (lab, ops) ∈ blocks := by
    rcases List.get?_eq_some.mp h with ⟨hlt, hget⟩
    exact hget ▸ List.get_mem blocks _ hlt
  have : ops.length ∈ blocks.map (fun b => b.2.length) :=
    List.mem_map.mpr ⟨(lab, ops), hmem, rfl⟩
  exact List.single_le_sum (fun x _ => Nat.zero_le x) _ this

/-- The structural-fuel invariant of the walk: with fuel at least
(unseen blocks) * (total ops + 2) + 1 for a block walk, plus the length
of the remaining op list for an op scan, the walk never runs out of fuel,
and a completed call restores the seen flags it found. -/
theorem seenMap_set2 (marks : List (Bool × Int)) (idx : Nat) (b : Bool) (d : Int) :
    seenMap (marks.set idx (b, d)) = (seenMap marks).set idx b :=
  seenMap_set marks idx (b, d)

theorem walk_fuel_invariant (py : PyInternals) (blocks : List (Option Label × List Op)) :
    ∀ fuel : Nat,
      (∀ idx (depth maxd : Int) (marks : List (Bool × Int)),
        marks.length = blocks.length →
        unseenCount marks * (blocksOpsLen blocks + 2) + 1 ≤ fuel →
        match walkB py blocks fuel idx depth maxd marks with
        | .fuelOut => False
        | .done _ m' => seenMap m' = seenMap marks
        | .fail => True) ∧
      (∀ (ops : List Op) idx (depth maxd : Int) (marks : List (Bool × Int)),
        marks.length = blocks.length →
        ops.length + unseenCount marks * (blocksOpsLen blocks + 2) + 1 ≤ fuel →
        match walkOps py blocks fuel ops idx depth maxd marks with
        | .fuelOut => False
        | .cont _ _ m' => seenMap m' = seenMap marks
        | .broke _ m' => seenMap m' = seenMap marks
        | .fail => True) := by
  intro fuel
  induction fuel with
  | zero =>
    refine ⟨?_, ?_⟩
    · intro idx depth maxd marks _ hb
      omega
    · intro ops idx depth maxd marks _ hb
      omega
  | succ n ih =>
    obtain ⟨ihB, ihO⟩ := ih
    constructor
    · -- the block walk at fuel n+1
      intro idx depth maxd marks hlen hb
      rw [walkB]
      cases hblk : blocks.get? idx with
      | none => exact trivial
      | some blk =>
        obtain ⟨lab, ops⟩ := blk
        cases hmk : marks.get? idx with
        | none => exact trivial
        | some sm =>
          obtain ⟨seen, sd⟩ := sm
          dsimp only
          by_cases hpr : (seen : Prop) ∨ sd ≥ depth
          · rw [if_pos hpr]
          · rw [if_neg hpr]
            push_neg at hpr
            have hseen : seen = false := by
              cases seen
              · rfl
              · exact absurd rfl hpr.1
            subst hseen
            have hgetF : (seenMap marks).get? idx = some false := by
              rw [seenMap, List.get?_map, hmk]
              rfl
            have hu1 : unseenCount (marks.set idx (true, depth)) + 1 = unseenCount marks := by
              rw [unseenCount, unseenCount, seenMap_set2]
              exact count_false_set_true _ _ hgetF
            have hlen' : (marks.set idx (true, depth)).length = blocks.length := by
              rw [List.length_set]
              exact hlen
            have hople : ops.length ≤ blocksOpsLen blocks := block_ops_le blocks idx lab ops hblk
            have hbO : ops.length +
                unseenCount (marks.set idx (true, depth)) * (blocksOpsLen blocks + 2) + 1 ≤ n := by
              have h1 : (unseenCount (marks.set idx (true, depth)) + 1) * (blocksOpsLen blocks + 2)
                  = unseenCount (marks.set idx (true, depth)) * (blocksOpsLen blocks + 2)
                    + (blocksOpsLen blocks + 2) := by ring
              rw [hu1] at h1
              omega
            have hO := ihO ops idx depth maxd (marks.set idx (true, depth)) hlen' hbO
            cases hwo : walkOps py blocks n ops idx depth maxd (marks.set idx (true, depth)) with
            | fail => exact trivial
            | fuelOut =>
              rw [hwo] at hO
              exact (hO : False).elim
            | broke max1 marks1 =>
              rw [hwo] at hO
              dsimp only
              have hO2 : seenMap marks1 = seenMap (marks.set idx (true, depth)) := hO
              have hlen1 : marks1.length = marks.length := by
                have hl := congrArg List.length hO2
                rw [seenMap_length, seenMap_length, List.length_set] at hl
                exact hl
              have hidxlt : idx < marks1.length := by
                rcases List.get?_eq_some.mp hmk with ⟨hlt, _⟩
                omega
              cases hm1 : marks1.get? idx with
              | none =>
                rw [List.get?_eq_none] at hm1
                omega
              | some p1 =>
                obtain ⟨b1, sd1⟩ := p1
                show seenMap (marks1.set idx (false, sd1)) = seenMap marks
                rw [seenMap_set2, hO2, seenMap_set2, List.set_set]
                exact set_get_same _ _ _ hgetF
            | cont depth1 max1 marks1 =>
              rw [hwo] at hO
              dsimp only
              have hO2 : seenMap marks1 = seenMap (marks.set idx (true, depth)) := hO
              have hlen1 : marks1.length = marks.length := by
                have hl := congrArg List.length hO2
                rw [seenMap_length, seenMap_length, List.length_set] at hl
                exact hl
              have hu1' : unseenCount marks1 + 1 = unseenCount marks := by
                rw [unseenCount, unseenCount, hO2, seenMap_set2]
                exact count_false_set_true _ _ hgetF
              have hidxlt : idx < marks1.length := by
                rcases List.get?_eq_some.mp hmk with ⟨hlt, _⟩
                omega
              by_cases hnext : idx + 1 < blocks.length
              · rw [if_pos hnext]
                have hbB : unseenCount marks1 * (blocksOpsLen blocks + 2) + 1 ≤ n := by
                  have h1 : (unseenCount marks1 + 1) * (blocksOpsLen blocks + 2)
                      = unseenCount marks1 * (blocksOpsLen blocks + 2)
                        + (blocksOpsLen blocks + 2) := by ring
                  rw [hu1'] at h1
                  omega
                have hB := ihB (idx + 1) depth1 max1 marks1 (by omega) hbB
                cases hwb : walkB py blocks n (idx + 1) depth1 max1 marks1 with
                | fail => exact trivial
                | fuelOut =>
                  rw [hwb] at hB
                  exact (hB : False).elim
                | done max2 marks2 =>
                  rw [hwb] at hB
                  dsimp only
                  have hB2 : seenMap marks2 = seenMap marks1 := hB
                  have hlen2 : marks2.length = marks.length := by
                    have hl := congrArg List.length hB2
                    rw [seenMap_length, seenMap_length] at hl
                    omega
                  cases hm2 : marks2.get? idx with
                  | none =>
                    rw [List.get?_eq_none] at hm2
                    omega
                  | some p2 =>
                    obtain ⟨b2, sd2⟩ := p2
                    show seenMap (marks2.set idx (false, sd2)) = seenMap marks
                    rw [seenMap_set2, hB2, hO2, seenMap_set2, List.set_set]
                    exact set_get_same _ _ _ hgetF
              · rw [if_neg hnext]
                cases hm1 : marks1.get? idx with
                | none =>
                  rw [List.get?_eq_none] at hm1
                  omega
                | some p1 =>
                  obtain ⟨b1, sd1⟩ := p1
                  show seenMap (marks1.set idx (false, sd1)) = seenMap marks
                  rw [seenMap_set2, hO2, seenMap_set2, List.set_set]
                  exact set_get_same _ _ _ hgetF
    · -- the op scan at fuel n+1
      intro ops idx depth maxd marks hlen hb
      cases ops with
      | nil => exact rfl
      | cons o rest =>
        rw [walkOps]
        cases hse : py.stackeffect o.name with
        | none => exact trivial
        | some se =>
          dsimp only
          cases hom : py.opmap o.name with
          | none => exact trivial
          | some op_code =>
            dsimp only
            by_cases hj : py.hasjrel.contains op_code ∨ py.hasjabs.contains op_code
            · rw [if_pos hj]
              cases harg : o.arg with
              | none => exact trivial
              | some a0 =>
                cases a0 with
                | int m => exact trivial
                | lbl l =>
                  dsimp only
                  cases hbi : blockIdx blocks (some l) with
                  | none => exact trivial
                  | some tidx =>
                    dsimp only
                    have hbB : unseenCount marks * (blocksOpsLen blocks + 2) + 1 ≤ n := by
                      simp only [List.length_cons] at hb
                      omega
                    have hB := ihB tidx
                      (jumpAdjust py o.name (depth + effOf se (some (OpArgVal.lbl l)))
                        (maxI (depth + effOf se (some (OpArgVal.lbl l))) maxd)).1
                      (jumpAdjust py o.name (depth + effOf se (some (OpArgVal.lbl l)))
                        (maxI (depth + effOf se (some (OpArgVal.lbl l))) maxd)).2
                      marks hlen hbB
                    cases hwb : walkB py blocks n tidx
                        (jumpAdjust py o.name (depth + effOf se (some (OpArgVal.lbl l)))
                          (maxI (depth + effOf se (some (OpArgVal.lbl l))) maxd)).1
                        (jumpAdjust py o.name (depth + effOf se (some (OpArgVal.lbl l)))
                          (maxI (depth + effOf se (some (OpArgVal.lbl l))) maxd)).2 marks with
                    | fail => exact trivial
                    | fuelOut =>
                      rw [hwb] at hB
                      exact (hB : False).elim
                    | done max3 marks3 =>
                      rw [hwb] at hB
                      dsimp only
                      have hB2 : seenMap marks3 = seenMap marks := hB
                      by_cases hbrk : o.name = "JUMP_ABSOLUTE" ∨ o.name = "JUMP_FORWARD"
                      · rw [if_pos hbrk]
                        exact hB2
                      · rw [if_neg hbrk]
                        have hlen3 : marks3.length = blocks.length := by
                          have hl := congrArg List.length hB2
                          rw [seenMap_length, seenMap_length] at hl
                          omega
                        have hu3 : unseenCount marks3 = unseenCount marks := by
                          rw [unseenCount, unseenCount, hB2]
                        have hbO : rest.length +
                            unseenCount marks3 * (blocksOpsLen blocks + 2) + 1 ≤ n := by
                          rw [hu3]
                          simp only [List.length_cons] at hb
                          omega
                        have hO := ihO rest idx
                          (fallAdjust py o.name (depth + effOf se (some (OpArgVal.lbl l))))
                          max3 marks3 hlen3 hbO
                        cases hwo : walkOps py blocks n rest idx
                            (fallAdjust py o.name (depth + effOf se (some (OpArgVal.lbl l))))
                            max3 marks3 with
                        | fail => exact trivial
                        | fuelOut =>
                          rw [hwo] at hO
                          exact (hO : False).elim
                        | cont d2 m2 marks4 =>
                          rw [hwo] at hO
                          have hO2 : seenMap marks4 = seenMap marks3 := hO
                          exact hO2.trans hB2
                        | broke m2 marks4 =>
                          rw [hwo] at hO
                          have hO2 : seenMap marks4 = seenMap marks3 := hO
                          exact hO2.trans hB2
            · rw [if_neg hj]
              by_cases hbrk : o.name = "JUMP_ABSOLUTE" ∨ o.name = "JUMP_FORWARD"
              · rw [if_pos hbrk]
              · rw [if_neg hbrk]
                have hbO : rest.length + unseenCount marks * (blocksOpsLen blocks + 2) + 1 ≤ n := by
                  simp only [List.length_cons] at hb
                  omega
                have hO := ihO rest idx (depth + effOf se o.arg)
                  (maxI (depth + effOf se o.arg) maxd) marks hlen hbO
                cases hwo : walkOps py blocks n rest idx (depth + effOf se o.arg)
                    (maxI (depth + effOf se o.arg) maxd) marks with
                | fail => exact trivial
                | fuelOut =>
                  rw [hwo] at hO
                  exact (hO : False).elim
                | cont d2 m2 marks4 =>
                  rw [hwo] at hO
                  exact (hO : seenMap marks4 = seenMap marks)
                | broke m2 marks4 =>
                  rw [hwo] at hO
                  exact (hO : seenMap marks4 = seenMap marks)

/-- C8: calculate_max_stack_depth terminates for every symbolic sequence
and descriptor, including cyclic jump graphs: the seen/startdepth pruning
bounds the nesting of the recursive walk, so the fixed fuel never runs
out (the result is a value or a raised error, never fuel exhaustion). -/
theorem c8_walk_terminates (ops : List OpElem) (py : PyInternals) :
    calculate_max_stack_depth ops py ≠ .fuelOut := by
  rw [calculate_max_stack_depth]
  have hlen : (List.replicate (blocks_from_ops ops).length ((false : Bool), (-1 : Int))).length
      = (blocks_from_ops ops).length := by
    simp
  have hu : unseenCount (List.replicate (blocks_from_ops ops).length ((false : Bool), (-1 : Int)))
      = (blocks_from_ops ops).length := by
    rw [unseenCount, seenMap]
    simp [List.count_replicate]
  have hinv := (walk_fuel_invariant py (blocks_from_ops ops) (walkFuel (blocks_from_ops ops))).1
    0 0 0 (List.replicate (blocks_from_ops ops).length ((false : Bool), (-1 : Int)))
    hlen
    (by rw [hu, walkFuel])
  cases hwb : walkB py (blocks_from_ops ops) (walkFuel (blocks_from_ops ops)) 0 0 0
      (List.replicate (blocks_from_ops ops).length ((false : Bool), (-1 : Int))) with
  | done d m => simp
  | fail => simp
  | fuelOut => rw [hwb] at hinv; exact hinv.elim

/-- C9: CodeObject.assemble without an explicit py_internals argument
changes only co_code (to the assembled bytes) and co_stacksize (to the
computed maximum stack depth); every other field, including the stored
py_internals, is unchanged. -/
theorem c9_frame_effect (co : CodeObject) (ops : List OpElem) (co' : CodeObject)
    (h : co.assemble ops none = some co') :
    co'.co_argcount = co.co_argcount ∧
    co'.co_kwonlyargcount = co.co_kwonlyargcount ∧
    co'.co_nlocals = co.co_nlocals ∧
    co'.co_flags = co.co_flags ∧
    co'.co_consts = co.co_consts ∧
    co'.co_names = co.co_names ∧
    co'.co_varnames = co.co_varnames ∧
    co'.co_filename = co.co_filename ∧
    co'.co_name = co.co_name ∧
    co'.co_firstlineno = co.co_firstlineno ∧
    co'.co_lnotab = co.co_lnotab ∧
    co'.co_freevars = co.co_freevars ∧
    co'.co_cellvars = co.co_cellvars ∧
    co'.py_internals = co.py_internals ∧
    (∃ code, assembleRun ops co.py_internals = .ok code ∧ co'.co_code = code) ∧
    (∃ d, calculate_max_stack_depth ops co.py_internals = .val d ∧ co'.co_stacksize = d) := by
  rw [CodeObject.assemble] at h
  simp only [Option.getD_none] at h
  cases hA : assembleRun ops co.py_internals with
  | ok code =>
    rw [hA] at h
    cases hD : calculate_max_stack_depth ops co.py_internals with
    | val d =>
      rw [hD] at h
      simp only [Option.some.injEq] at h
      subst h
      refine ⟨rfl, rfl, rfl, rfl, rfl, rfl, rfl, rfl, rfl, rfl, rfl, rfl, rfl, rfl,
        ⟨code, rfl, rfl⟩, ⟨d, rfl, rfl⟩⟩
    | err => rw [hD] at h; cases h
    | fuelOut => rw [hD] at h; cases h
  | err e => rw [hA] at h; cases h
  | outOfFuel => rw [hA] at h; cases h

/-- C9 witness: the frame-effect theorem applied to a concrete CodeObject
assembling a single RETURN_VALUE op. -/
theorem c9_witness :
    co9.assemble [.op ⟨"RETURN_VALUE", none⟩] none =
      some { co9 with co_code := [83], co_stacksize := 0 } ∧
    ({ co9 with co_code := [83], co_stacksize := 0 } : CodeObject).co_consts =
      co9.co_consts := by
  refine ⟨rfl, ?_⟩
  exact (c9_frame_effect co9 [.op ⟨"RETURN_VALUE", none⟩] _ rfl).2.2.2.2.1

/-! ## C1: the round trip fails on an extended-argument relative jump -/

/-- Scanning a run of NOP bytes appends one decoded NOP per byte and
advances the address, leaving the rest of the scan unchanged. -/
theorem disasm_nops (rest : List Nat) :
    ∀ (n addr : Nat) (st : DisState), st.ext_arg = 0 →
    disassembleCore py27 (List.replicate n 9 ++ rest) addr st =
      disassembleCore py27 rest (addr + n)
        { st with addr_opsRev := nopsRev n addr ++ st.addr_opsRev } := by
  intro n
  induction n with
  | zero =>
    intro addr st hext
    simp [nopsRev]
  | succ n ih =>
    intro addr st hext
    rw [List.replicate_succ, List.cons_append]
    rw [disassembleCore.eq_def]
    dsimp only
    have h9 : ¬ ((9 : Nat) ≥ py27.have_argument) := by decide
    rw [if_neg h9]
    have hname : ¬ (py27.opname 9 = py27.opname py27.extended_arg) := by decide
    rw [if_neg hname]
    rw [ih (addr + 1) _ rfl]
    have harr : nopsRev n (addr + 1) ++ (addr, some ⟨py27.opname 9, none⟩) :: st.addr_opsRev
        = nopsRev (n + 1) addr ++ st.addr_opsRev := by
      rw [nopsRev, List.append_assoc]
      rfl
    have haddr : addr + 1 + n = addr + (n + 1) := by omega
    rw [haddr, hext, harr]

/-- Reversing the accumulated NOP entries yields them in scan order. -/
theorem nopsRev_reverse : ∀ (n addr : Nat), (nopsRev n addr).reverse = nopsAsc n addr := by
  intro n
  induction n with
  | zero => intro addr; rfl
  | succ n ih =>
    intro addr
    rw [nopsRev, nopsAsc, List.reverse_append]
    simp [ih]

/-- Splicing over a run of decoded NOPs none of whose addresses carries a
label contributes exactly the NOP ops. -/
theorem splice_nops (L : List (Nat × Label)) (rest : List (Nat × Option Op)) :
    ∀ (n addr : Nat), (∀ i, i < n → lookupA L (addr + i) = none) →
    spliceOps L (nopsAsc n addr ++ rest) =
      List.replicate n (.op ⟨"NOP", none⟩) ++ spliceOps L rest := by
  intro n
  induction n with
  | zero => intro addr h; rfl
  | succ n ih =>
    intro addr h
    rw [nopsAsc, List.cons_append, spliceOps]
    have h0 : lookupA L (addr + 0) = none := h 0 (by omega)
    rw [Nat.add_zero] at h0
    rw [h0]
    have hrec := ih (addr + 1) (fun i hi => by
      have := h (i + 1) (by omega)
      rwa [show addr + (i + 1) = addr + 1 + i by omega] at this)
    rw [hrec]
    simp [List.replicate_succ]

set_option maxRecDepth 2048 in
/-- The disassembly of bigB: the extended-argument prefix is merged into
the jump, the NOPs follow, and the target label is spliced before the
final NOP at address 65542. -/
theorem disassemble_bigB : disassemble bigB py27 = some bigOps := by
  rw [disassemble, bigB]
  have hhead : ∀ (tail : List Nat),
      disassembleCore py27 (145 :: 1 :: 0 :: 110 :: 0 :: 0 :: tail) 0 ⟨0, 0, [], []⟩ =
      disassembleCore py27 tail 6
        ⟨0, 1, [(65542, ⟨0⟩)],
          [(3, some ⟨"JUMP_FORWARD", some (.lbl ⟨0⟩)⟩), (0, none)]⟩ := by
    intro tail
    rfl
  rw [hhead]
  rw [disasm_nops ([9]) 65536 6 _ rfl]
  have htail :
      disassembleCore py27 [9] (6 + 65536)
        ⟨0, 1, [(65542, ⟨0⟩)],
          nopsRev 65536 6 ++ [(3, some ⟨"JUMP_FORWARD", some (.lbl ⟨0⟩)⟩), (0, none)]⟩ =
      some ⟨0, 1, [(65542, ⟨0⟩)],
          (65542, some ⟨"NOP", none⟩) ::
            (nopsRev 65536 6 ++ [(3, some ⟨"JUMP_FORWARD", some (.lbl ⟨0⟩)⟩), (0, none)])⟩ := by
    rfl
  rw [htail]
  have hmain : spliceOps [((65542 : Nat), (⟨0⟩ : Label))]
      (((65542, some (⟨"NOP", none⟩ : Op)) ::
        (nopsRev 65536 6 ++
          [(3, some ⟨"JUMP_FORWARD", some (.lbl ⟨0⟩)⟩), (0, none)])).reverse)
      = bigOps := by
    rw [List.reverse_cons, List.reverse_append, nopsRev_reverse]
    have hrev : ([(3, some (⟨"JUMP_FORWARD", some (.lbl ⟨0⟩)⟩ : Op)),
        ((0 : Nat), (none : Option Op))]).reverse
        = [((0 : Nat), (none : Option Op)),
           (3, some ⟨"JUMP_FORWARD", some (.lbl ⟨0⟩)⟩)] := rfl
    rw [hrev]
    simp only [List.cons_append, List.nil_append]
    have hs0 : ∀ T, spliceOps [(65542, ⟨0⟩)] (((0 : Nat), (none : Option Op)) :: T)
        = spliceOps [(65542, ⟨0⟩)] T := fun T => rfl
    have hs3 : ∀ T, spliceOps [(65542, ⟨0⟩)]
        ((3, some (⟨"JUMP_FORWARD", some (.lbl ⟨0⟩)⟩ : Op)) :: T)
        = .op ⟨"JUMP_FORWARD", some (.lbl ⟨0⟩)⟩ :: spliceOps [(65542, ⟨0⟩)] T :=
      fun T => rfl
    rw [hs0, hs3]
    rw [splice_nops _ _ 65536 6 (by
      intro i hi
      have hne : (6 + i) ≠ 65542 := by omega
      simp [lookupA, hne])]
    have hs4 : spliceOps [(65542, ⟨0⟩)] [(65542, some ⟨"NOP", none⟩)]
        = [.lbl ⟨0⟩, .op ⟨"NOP", none⟩] := rfl
    rw [hs4, bigOps]
  exact congrArg some hmain

/-- bigOps unfolded to its cons form. -/
theorem bigOps_expand : bigOps = .op ⟨"JUMP_FORWARD", some (.lbl ⟨0⟩)⟩ ::
    (List.replicate 65536 (.op ⟨"NOP", none⟩) ++ [.lbl ⟨0⟩, .op ⟨"NOP", none⟩]) := rfl

/-- The target label occurs as an element of bigOps. -/
theorem labelInOps_bigOps : labelInOps ⟨0⟩ bigOps = true := by
  rw [bigOps, labelInOps]
  rw [List.any_cons, List.any_append]
  have hrepl : ∀ n, (List.replicate n (OpElem.op ⟨"NOP", none⟩)).any
      (fun e => match e with
        | .lbl l' => decide (l' = (⟨0⟩ : Label))
        | .op _ => false) = false := by
    intro n
    induction n with
    | zero => rfl
    | succ n ih => rw [List.replicate_succ, List.any_cons, ih]; rfl
  rw [hrepl]
  rfl

/-- The first-pass step on the jump of bigOps: the label has not
materialized, so the size is estimated as 3 and nothing is emitted. -/
theorem stepJF1 :
    asmStep py27 bigOps ⟨[], 0, [], false⟩ (.op ⟨"JUMP_FORWARD", some (.lbl ⟨0⟩)⟩) =
    .ok ⟨[], 3, [], false⟩ := by
  rw [asmStep, stepOp]
  rw [show py27.opmap "JUMP_FORWARD" = some 110 from rfl]
  dsimp only
  rw [labelInOps_bigOps]
  decide

/-- The second-pass step on the jump: the label resolved to 65539, the
relative argument 65536 needs the extended-argument prefix. -/
theorem stepJF2 :
    asmStep py27 bigOps ⟨[], 0, [(⟨0⟩, 65539)], false⟩
      (.op ⟨"JUMP_FORWARD", some (.lbl ⟨0⟩)⟩) =
    .ok ⟨[0, 0, 110, 0, 1, 145], 6, [(⟨0⟩, 65539)], false⟩ := by
  rw [asmStep, stepOp]
  rw [show py27.opmap "JUMP_FORWARD" = some 110 from rfl]
  dsimp only
  rw [labelInOps_bigOps]
  decide

/-- The third-pass step on the jump: the label resolved to 65542, the
relative argument is 65539 (low 16 bits 3). -/
theorem stepJF3 :
    asmStep py27 bigOps ⟨[], 0, [(⟨0⟩, 65542), (⟨0⟩, 65539)], false⟩
      (.op ⟨"JUMP_FORWARD", some (.lbl ⟨0⟩)⟩) =
    .ok ⟨[0, 3, 110, 0, 1, 145], 6, [(⟨0⟩, 65542), (⟨0⟩, 65539)], false⟩ := by
  rw [asmStep, stepOp]
  rw [show py27.opmap "JUMP_FORWARD" = some 110 from rfl]
  dsimp only
  rw [labelInOps_bigOps]
  decide

/-- A run of NOP ops emits one byte each and advances the address. -/
theorem asmPass_nops (OPS : List OpElem) :
    ∀ (n : Nat) (st : AsmState) (rest : List OpElem),
    asmPass py27 OPS st (List.replicate n (.op ⟨"NOP", none⟩) ++ rest) =
    asmPass py27 OPS ⟨List.replicate n 9 ++ st.outputRev, st.address + n,
      st.label_address, st.retry⟩ rest := by
  intro n
  induction n with
  | zero => intro st rest; rfl
  | succ n ih =>
    intro st rest
    rw [List.replicate_succ, List.cons_append, asmPass]
    have hstep : asmStep py27 OPS st (.op ⟨"NOP", none⟩) =
        .ok ⟨9 :: st.outputRev, st.address + 1, st.label_address, st.retry⟩ := rfl
    rw [hstep]
    dsimp only
    rw [ih]
    have harr : List.replicate (n + 1) 9 ++ st.outputRev
        = List.replicate n 9 ++ (9 :: st.outputRev) := by
      rw [List.replicate_succ', List.append_assoc]
      rfl
    have haddr : st.address + 1 + n = st.address + (n + 1) := by omega
    rw [harr, haddr]

/-- Pass 1 over bigOps: the jump is estimated, the label is recorded at
address 65539, the pass must be retried. -/
theorem asmPass_big1 :
    asmPass py27 bigOps ⟨[], 0, [], false⟩ bigOps =
    .ok ⟨9 :: List.replicate 65536 9, 65540, [(⟨0⟩, 65539)], true⟩ := by
  nth_rewrite 2 [bigOps_expand]
  rw [asmPass, stepJF1]
  dsimp only
  rw [asmPass_nops]
  dsimp only
  rw [show (3 : Nat) + 65536 = 65539 from rfl, List.append_nil]
  rw [asmPass]
  have hstepL : asmStep py27 bigOps ⟨List.replicate 65536 9, 65539, [], false⟩ (.lbl ⟨0⟩) =
      .ok ⟨List.replicate 65536 9, 65539, [(⟨0⟩, 65539)], true⟩ := rfl
  rw [hstepL]
  dsimp only
  rw [asmPass]
  have hstepN : asmStep py27 bigOps ⟨List.replicate 65536 9, 65539, [(⟨0⟩, 65539)], true⟩
      (.op ⟨"NOP", none⟩) =
      .ok ⟨9 :: List.replicate 65536 9, 65540, [(⟨0⟩, 65539)], true⟩ := rfl
  rw [hstepN]
  rfl

/-- Pass 2 over bigOps: the jump is emitted with argument 65536 but the
label now lands at 65542, so the pass must be retried. -/
theorem asmPass_big2 :
    asmPass py27 bigOps ⟨[], 0, [(⟨0⟩, 65539)], false⟩ bigOps =
    .ok ⟨9 :: (List.replicate 65536 9 ++ [0, 0, 110, 0, 1, 145]), 65543,
      [(⟨0⟩, 65542), (⟨0⟩, 65539)], true⟩ := by
  nth_rewrite 2 [bigOps_expand]
  rw [asmPass, stepJF2]
  dsimp only
  rw [asmPass_nops]
  dsimp only
  rw [show (6 : Nat) + 65536 = 65542 from rfl]
  rw [asmPass]
  have hstepL : asmStep py27 bigOps
      ⟨List.replicate 65536 9 ++ [0, 0, 110, 0, 1, 145], 65542, [(⟨0⟩, 65539)], false⟩
      (.lbl ⟨0⟩) =
      .ok ⟨List.replicate 65536 9 ++ [0, 0, 110, 0, 1, 145], 65542,
        [(⟨0⟩, 65542), (⟨0⟩, 65539)], true⟩ := rfl
  rw [hstepL]
  dsimp only
  rw [asmPass]
  have hstepN : asmStep py27 bigOps
      ⟨List.replicate 65536 9 ++ [0, 0, 110, 0, 1, 145], 65542,
        [(⟨0⟩, 65542), (⟨0⟩, 65539)], true⟩
      (.op ⟨"NOP", none⟩) =
      .ok ⟨9 :: (List.replicate 65536 9 ++ [0, 0, 110, 0, 1, 145]), 65543,
        [(⟨0⟩, 65542), (⟨0⟩, 65539)], true⟩ := rfl
  rw [hstepN]
  rfl

/-- Pass 3 over bigOps: the jump is emitted with argument 65539, every
label address matches, no retry. -/
theorem asmPass_big3 :
    asmPass py27 bigOps ⟨[], 0, [(⟨0⟩, 65542), (⟨0⟩, 65539)], false⟩ bigOps =
    .ok ⟨9 :: (List.replicate 65536 9 ++ [0, 3, 110, 0, 1, 145]), 65543,
      [(⟨0⟩, 65542), (⟨0⟩, 65539)], false⟩ := by
  nth_rewrite 2 [bigOps_expand]
  rw [asmPass, stepJF3]
  dsimp only
  rw [asmPass_nops]
  dsimp only
  rw [show (6 : Nat) + 65536 = 65542 from rfl]
  rw [asmPass]
  have hstepL : asmStep py27 bigOps
      ⟨List.replicate 65536 9 ++ [0, 3, 110, 0, 1, 145], 65542,
        [(⟨0⟩, 65542), (⟨0⟩, 65539)], false⟩
      (.lbl ⟨0⟩) =
      .ok ⟨List.replicate 65536 9 ++ [0, 3, 110, 0, 1, 145], 65542,
        [(⟨0⟩, 65542), (⟨0⟩, 65539)], false⟩ := rfl
  rw [hstepL]
  dsimp only
  rw [asmPass]
  have hstepN : asmStep py27 bigOps
      ⟨List.replicate 65536 9 ++ [0, 3, 110, 0, 1, 145], 65542,
        [(⟨0⟩, 65542), (⟨0⟩, 65539)], false⟩
      (.op ⟨"NOP", none⟩) =
      .ok ⟨9 :: (List.replicate 65536 9 ++ [0, 3, 110, 0, 1, 145]), 65543,
        [(⟨0⟩, 65542), (⟨0⟩, 65539)], false⟩ := rfl
  rw [hstepN]
  rfl

/-- Assembling bigOps produces bigOut, whose relative argument encodes 3
in byte 4 where bigB had 0. -/
theorem assemble_bigOps : assembleRun bigOps py27 = .ok bigOut := by
  have hlen : bigOps.length = 65539 := by
    rw [bigOps_expand]
    rw [List.length_cons, List.length_append, List.length_replicate]
    rw [show ([.lbl ⟨0⟩, .op ⟨"NOP", none⟩] : List OpElem).length = 2 from rfl]
  rw [assembleRun, assemble, passBound, hlen]
  rw [show 6 * 65539 * 65539 + 3 = (6 * 65539 * 65539 + 2) + 1 by omega]
  rw [asmLoop, asmPass_big1]
  dsimp only
  rw [show 6 * 65539 * 65539 + 2 = (6 * 65539 * 65539 + 1) + 1 by omega]
  rw [asmLoop, asmPass_big2]
  dsimp only
  rw [show 6 * 65539 * 65539 + 1 = (6 * 65539 * 65539) + 1 by omega]
  rw [asmLoop, asmPass_big3]
  dsimp only
  rw [List.reverse_cons, List.reverse_append, List.reverse_replicate]
  rw [show ([0, 3, 110, 0, 1, 145] : List Nat).reverse = [145, 1, 0, 110, 3, 0] from rfl]
  rw [bigOut]
  simp only [if_true]
  rw [if_neg (show ¬(false = true) by decide)]
  rw [List.append_assoc]
  rw [show ([145, 1, 0, 110, 3, 0] : List Nat) ++ (List.replicate 65536 9 ++ [9])
      = 145 :: 1 :: 0 :: 110 :: 3 :: 0 :: (List.replicate 65536 9 ++ [9]) from rfl]

/-- C1: the round trip fails.  bigB is a valid bytecode sequence under
the descriptor (it parses completely, is canonically encoded, and its
jump target 65542 is a decoded instruction), yet
assemble(disassemble(bigB)) returns bigOut, which differs from bigB:
the extended-argument relative jump argument comes back as 65539
instead of 65536 (byte 4 is 3, not 0), because assemble computes the
relative argument before accounting for the 3-byte prefix it then
emits. -/
theorem c1_roundtrip_failure :
    disassemble bigB py27 = some bigOps ∧
    assembleRun bigOps py27 = .ok bigOut ∧
    bigOut ≠ bigB := by
  refine ⟨disassemble_bigB, assemble_bigOps, ?_⟩
  intro h
  have h4 : bigOut.get? 4 = bigB.get? 4 := by rw [h]
  have hOut : bigOut.get? 4 = some 3 := rfl
  have hB : bigB.get? 4 = some 0 := rfl
  rw [hOut, hB] at h4
  cases h4

/-! ## C7: label memoization and splice uniqueness -/

/-- A failed association-list lookup means the key is absent. -/
theorem lookupA_none_iff {α β : Type} [DecidableEq α] (L : List (α × β)) (k : α) :
    lookupA L k = none ↔ ∀ p ∈ L, p.1 ≠ k := by
  induction L with
  | nil => simp [lookupA]
  | cons q L ih =>
    obtain ⟨a, b⟩ := q
    by_cases hk : k = a
    · subst hk
      simp [lookupA]
    · rw [lookupA, if_neg hk]
      rw [ih]
      constructor
      · intro h p hp
        rcases List.mem_cons.mp hp with rfl | hp
        · simpa using fun he => hk he.symm
        · exact h p hp
      · intro h p hp
        exact h p (List.mem_cons_of_mem _ hp)

/-- A successful lookup returns a member. -/
theorem lookupA_mem {α β : Type} [DecidableEq α] (L : List (α × β)) (k : α) (v : β)
    (h : lookupA L k = some v) : (k, v) ∈ L := by
  induction L with
  | nil => cases h
  | cons q L ih =>
    obtain ⟨a, b⟩ := q
    by_cases hk : k = a
    · subst hk
      rw [lookupA, if_pos rfl] at h
      cases h
      exact List.mem_cons_self _ _
    · rw [lookupA, if_neg hk] at h
      exact List.mem_cons_of_mem _ (ih h)

/-- With distinct keys, membership determines the lookup. -/
theorem lookupA_of_mem_nodup {α β : Type} [DecidableEq α] (L : List (α × β))
    (hnd : (L.map Prod.fst).Nodup) (k : α) (v : β) (h : (k, v) ∈ L) :
    lookupA L k = some v := by
  induction L with
  | nil => cases h
  | cons q L ih =>
    obtain ⟨a, b⟩ := q
    rw [List.map_cons, List.nodup_cons] at hnd
    rcases List.mem_cons.mp h with heq | hmem
    · cases heq
      rw [lookupA, if_pos rfl]
    · have hka : k ≠ a := by
        intro hk
        subst hk
        exact hnd.1 (List.mem_map.mpr ⟨(k, v), hmem, rfl⟩)
      rw [lookupA, if_neg hka]
      exact ih hnd.2 hmem

/-- With distinct keys, a key determines its value. -/
theorem nodup_fst_eq {α β : Type} {L : List (α × β)}
    (hnd : (L.map Prod.fst).Nodup) {a : α} {b1 b2 : β}
    (h1 : (a, b1) ∈ L) (h2 : (a, b2) ∈ L) : b1 = b2 := by
  induction L with
  | nil => cases h1
  | cons q L ih =>
    rw [List.map_cons, List.nodup_cons] at hnd
    rcases List.mem_cons.mp h1 with rfl | hm1
    · rcases List.mem_cons.mp h2 with heq | hm2
      · cases heq; rfl
      · exact absurd (List.mem_map.mpr ⟨(a, b2), hm2, rfl⟩) hnd.1
    · rcases List.mem_cons.mp h2 with rfl | hm2
      · exact absurd (List.mem_map.mpr ⟨(a, b1), hm1, rfl⟩) hnd.1
      · exact ih hnd.2 hm1 hm2

/-- With distinct values, a value determines its key. -/
theorem nodup_snd_eq {α β : Type} {L : List (α × β)}
    (hnd : (L.map Prod.snd).Nodup) {a1 a2 : α} {b : β}
    (h1 : (a1, b) ∈ L) (h2 : (a2, b) ∈ L) : a1 = a2 := by
  induction L with
  | nil => cases h1
  | cons q L ih =>
    rw [List.map_cons, List.nodup_cons] at hnd
    rcases List.mem_cons.mp h1 with rfl | hm1
    · rcases List.mem_cons.mp h2 with heq | hm2
      · cases heq; rfl
      · exact absurd (List.mem_map.mpr ⟨(a2, b), hm2, rfl⟩) hnd.1
    · rcases List.mem_cons.mp h2 with rfl | hm2
      · exact absurd (List.mem_map.mpr ⟨(a1, b), hm1, rfl⟩) hnd.1
      · exact ih hnd.2 hm1 hm2

theorem goodDis_push (addr : Nat) (st : DisState) (hg : GoodDis addr st)
    (k : Nat) (hk : 1 ≤ k) (e : Nat) (o? : Option Op)
    (harg : ∀ o : Op, o? = some o → ∀ l : Label,
      o.arg = some (OpArgVal.lbl l) → ∃ t, (t, l) ∈ st.addr_labels) :
    GoodDis (addr + k)
      { st with ext_arg := e, addr_opsRev := (addr, o?) :: st.addr_opsRev } := by
  obtain ⟨h1, h2, h3, h4, h5, h6⟩ := hg
  refine ⟨h1, h2, h3, ?_, ?_, ?_⟩
  · rw [List.map_cons, List.nodup_cons]
    exact ⟨fun hmem => absurd (h5 _ hmem) (lt_irrefl addr), h4⟩
  · intro x hx
    rw [List.map_cons, List.mem_cons] at hx
    rcases hx with hx | hx
    · have hxa : x = addr := hx
      omega
    · have := h5 x hx
      omega
  · intro p hp o ho l hl
    rcases List.mem_cons.mp hp with rfl | hp
    · exact harg o ho l hl
    · exact h6 p hp o ho l hl

theorem goodDis_newLabel (addr : Nat) (st : DisState) (hg : GoodDis addr st)
    (A1 : Nat) (hnone : lookupA st.addr_labels A1 = none) :
    GoodDis addr { st with nextLabel := st.nextLabel + 1,
                           addr_labels := st.addr_labels ++ [(A1, ⟨st.nextLabel⟩)] } := by
  obtain ⟨h1, h2, h3, h4, h5, h6⟩ := hg
  have hkey : ∀ p ∈ st.addr_labels, p.1 ≠ A1 := (lookupA_none_iff _ _).mp hnone
  refine ⟨?_, ?_, ?_, h4, h5, ?_⟩
  · rw [List.map_append]
    refine List.Nodup.append h1 (List.nodup_singleton _) ?_
    intro x hx hx2
    rw [List.map_singleton, List.mem_singleton] at hx2
    subst hx2
    obtain ⟨p, hp, hpx⟩ := List.mem_map.mp hx
    exact hkey p hp hpx
  · rw [List.map_append]
    refine List.Nodup.append h2 (List.nodup_singleton _) ?_
    intro x hx hx2
    rw [List.map_singleton, List.mem_singleton] at hx2
    subst hx2
    obtain ⟨p, hp, hpx⟩ := List.mem_map.mp hx
    have h3p := h3 p hp
    rw [hpx] at h3p
    exact absurd h3p (lt_irrefl _)
  · intro p hp
    show p.2.id < st.nextLabel + 1
    rcases List.mem_append.mp hp with hp | hp
    · have := h3 p hp
      omega
    · rw [List.mem_singleton] at hp
      subst hp
      show st.nextLabel < st.nextLabel + 1
      omega
  · intro p hp o ho l hl
    obtain ⟨t, ht⟩ := h6 p hp o ho l hl
    exact ⟨t, List.mem_append_left _ ht⟩

theorem disasm_good (py : PyInternals) :
    ∀ (n : Nat) (bytes : List Nat), bytes.length ≤ n →
    ∀ (addr : Nat) (st st' : DisState),
    disassembleCore py bytes addr st = some st' →
    GoodDis addr st →
    (∃ addr2, addr ≤ addr2 ∧ GoodDis addr2 st') ∧
    (∀ p ∈ st.addr_labels, p ∈ st'.addr_labels) := by
  intro n
  induction n with
  | zero =>
    intro bytes hlen addr st st' h hg
    have hb : bytes = [] := List.length_eq_zero.mp (Nat.le_zero.mp hlen)
    subst hb
    rw [disassembleCore] at h
    injection h with h
    subst h
    exact ⟨⟨addr, Nat.le_refl _, hg⟩, fun p hp => hp⟩
  | succ n ih =>
    intro bytes hlen addr st st' h hg
    match bytes with
    | [] =>
      rw [disassembleCore] at h
      injection h with h
      subst h
      exact ⟨⟨addr, Nat.le_refl _, hg⟩, fun p hp => hp⟩
    | op_code :: rest =>
      rw [disassembleCore.eq_def] at h
      dsimp only at h
      by_cases hth : op_code ≥ py.have_argument
      · rw [if_pos hth] at h
        match rest with
        | [] => dsimp only at h; cases h
        | [a] => dsimp only at h; cases h
        | a :: b :: rest2 =>
          dsimp only at h
          have hlen2 : rest2.length ≤ n := by
            simp only [List.length_cons] at hlen
            omega
          generalize hA1 : (if py.hasjrel.contains op_code = true
            then a + b * 256 + st.ext_arg + addr + 3
            else a + b * 256 + st.ext_arg) = A1 at h
          split at h
          · -- extended-arg opcode
            split at h
            · -- a Label argument on EXTENDED_ARG: TypeError
              cases h
            · -- argLbl is none: accumulate the high bits
              split at h
              · -- jump opcode (vacuous for real descriptors)
                split at h
                · -- label already memoized
                  dsimp only at h
                  have hg2 : GoodDis (addr + 3)
                      { st with ext_arg := A1 <<< 16,
                                addr_opsRev := (addr, none) :: st.addr_opsRev } :=
                    goodDis_push addr st hg 3 (by omega) (A1 <<< 16) none
                      (fun o ho => Option.noConfusion ho)
                  obtain ⟨⟨addr2, hle, hgood⟩, hsub⟩ := ih rest2 hlen2 (addr + 3) _ st' h hg2
                  exact ⟨⟨addr2, by omega, hgood⟩, hsub⟩
                · -- fresh label allocated
                  dsimp only at h
                  rename_i hlook
                  have hgL := goodDis_newLabel addr st hg A1 hlook
                  have hg2 : GoodDis (addr + 3)
                      { ext_arg := A1 <<< 16, nextLabel := st.nextLabel + 1,
                        addr_labels := st.addr_labels ++ [(A1, ⟨st.nextLabel⟩)],
                        addr_opsRev := (addr, none) :: st.addr_opsRev } :=
                    goodDis_push addr _ hgL 3 (by omega) (A1 <<< 16) none
                      (fun o ho => Option.noConfusion ho)
                  obtain ⟨⟨addr2, hle, hgood⟩, hsub⟩ := ih rest2 hlen2 (addr + 3) _ st' h hg2
                  refine ⟨⟨addr2, by omega, hgood⟩, ?_⟩
                  intro p hp
                  exact hsub p (List.mem_append_left _ hp)
              · -- not a jump
                dsimp only at h
                have hg2 : GoodDis (addr + 3)
                    { st with ext_arg := A1 <<< 16,
                              addr_opsRev := (addr, none) :: st.addr_opsRev } :=
                  goodDis_push addr st hg 3 (by omega) (A1 <<< 16) none
                    (fun o ho => Option.noConfusion ho)
                obtain ⟨⟨addr2, hle, hgood⟩, hsub⟩ := ih rest2 hlen2 (addr + 3) _ st' h hg2
                exact ⟨⟨addr2, by omega, hgood⟩, hsub⟩
          · -- ordinary op with argument
            split at h
            · -- jump opcode
              split at h
              · -- label already memoized
                dsimp only at h
                rename_i l hlook
                have hg2 : GoodDis (addr + 3)
                    { st with ext_arg := 0,
                              addr_opsRev := (addr,
                                some ⟨py.opname op_code, some (OpArgVal.lbl l)⟩)
                                :: st.addr_opsRev } := by
                  refine goodDis_push addr st hg 3 (by omega) 0 _ ?_
                  intro o ho l2 hl
                  injection ho with ho
                  subst ho
                  injection hl with hl
                  injection hl with hl
                  subst hl
                  exact ⟨A1, lookupA_mem _ _ _ hlook⟩
                obtain ⟨⟨addr2, hle, hgood⟩, hsub⟩ := ih rest2 hlen2 (addr + 3) _ st' h hg2
                exact ⟨⟨addr2, by omega, hgood⟩, hsub⟩
              · -- fresh label allocated
                dsimp only at h
                rename_i hlook
                have hgL := goodDis_newLabel addr st hg A1 hlook
                have hg2 : GoodDis (addr + 3)
                    { ext_arg := 0, nextLabel := st.nextLabel + 1,
                      addr_labels := st.addr_labels ++ [(A1, ⟨st.nextLabel⟩)],
                      addr_opsRev := (addr,
                        some ⟨py.opname op_code, some (OpArgVal.lbl ⟨st.nextLabel⟩)⟩)
                        :: st.addr_opsRev } := by
                  refine goodDis_push addr _ hgL 3 (by omega) 0 _ ?_
                  intro o ho l2 hl
                  injection ho with ho
                  subst ho
                  injection hl with hl
                  injection hl with hl
                  subst hl
                  exact ⟨A1, List.mem_append_right _ (List.mem_singleton.mpr rfl)⟩
                obtain ⟨⟨addr2, hle, hgood⟩, hsub⟩ := ih rest2 hlen2 (addr + 3) _ st' h hg2
                refine ⟨⟨addr2, by omega, hgood⟩, ?_⟩
                intro p hp
                exact hsub p (List.mem_append_left _ hp)
            · -- non-jump op: integer argument
              dsimp only at h
              have hg2 : GoodDis (addr + 3)
                  { st with ext_arg := 0,
                            addr_opsRev := (addr,
                              some ⟨py.opname op_code, some (OpArgVal.int A1)⟩)
                              :: st.addr_opsRev } := by
                refine goodDis_push addr st hg 3 (by omega) 0 _ ?_
                intro o ho l2 hl
                injection ho with ho
                subst ho
                injection hl with hl
                cases hl
              obtain ⟨⟨addr2, hle, hgood⟩, hsub⟩ := ih rest2 hlen2 (addr + 3) _ st' h hg2
              exact ⟨⟨addr2, by omega, hgood⟩, hsub⟩
      · rw [if_neg hth] at h
        split at h
        · cases h
        · have hlen2 : rest.length ≤ n := by
            simp only [List.length_cons] at hlen
            omega
          have hg2 : GoodDis (addr + 1)
              { st with ext_arg := 0,
                        addr_opsRev := (addr, some ⟨py.opname op_code, none⟩)
                          :: st.addr_opsRev } := by
            refine goodDis_push addr st hg 1 (by omega) 0 _ ?_
            intro o ho l2 hl
            injection ho with ho
            subst ho
            cases hl
          obtain ⟨⟨addr2, hle, hgood⟩, hsub⟩ := ih rest hlen2 (addr + 1) _ st' h hg2
          exact ⟨⟨addr2, by omega, hgood⟩, hsub⟩

theorem spliceOps_cons (L : List (Nat × Label)) (a : Nat) (oq : Option Op)
    (B : List (Nat × Option Op)) :
    spliceOps L ((a, oq) :: B) =
      (match lookupA L a with | some l => [OpElem.lbl l] | none => []) ++
      (match oq with | some o => [OpElem.op o] | none => []) ++ spliceOps L B := rfl

theorem spliceOps_append (L : List (Nat × Label)) (A B : List (Nat × Option Op)) :
    spliceOps L (A ++ B) = spliceOps L A ++ spliceOps L B := by
  induction A with
  | nil => rfl
  | cons q A ih =>
    obtain ⟨a, oq⟩ := q
    rw [List.cons_append, spliceOps_cons, spliceOps_cons, ih]
    simp only [List.append_assoc]

theorem spliceOps_cons_found (L : List (Nat × Label)) (a : Nat) (o : Op)
    (B : List (Nat × Option Op)) (l : Label) (hlk : lookupA L a = some l) :
    spliceOps L ((a, some o) :: B) = OpElem.lbl l :: OpElem.op o :: spliceOps L B := by
  rw [spliceOps_cons, hlk]
  rfl

theorem spliceOps_lbl_not_mem (L : List (Nat × Label)) (A : List (Nat × Option Op))
    (l : Label) (hnl : ∀ p ∈ A, lookupA L p.1 ≠ some l) :
    OpElem.lbl l ∉ spliceOps L A := by
  induction A with
  | nil => simp [spliceOps]
  | cons q A ih =>
    obtain ⟨a, oq⟩ := q
    intro hmem
    rw [spliceOps_cons, List.mem_append, List.mem_append] at hmem
    rcases hmem with (hmem | hmem) | hmem
    · cases hka : lookupA L a with
      | none =>
        rw [hka] at hmem
        exact absurd hmem (List.not_mem_nil _)
      | some l2 =>
        rw [hka, List.mem_singleton] at hmem
        injection hmem with hmem
        subst hmem
        exact hnl (a, oq) (List.mem_cons_self _ _) hka
    · cases oq with
      | none => exact absurd hmem (List.not_mem_nil _)
      | some o2 =>
        rw [List.mem_singleton] at hmem
        cases hmem
    · exact ih (fun p hp => hnl p (List.mem_cons_of_mem _ hp)) hmem

theorem spliceOps_op_mem (L : List (Nat × Label)) (A : List (Nat × Option Op)) (o : Op)
    (hmem : OpElem.op o ∈ spliceOps L A) : ∃ a, (a, some o) ∈ A := by
  induction A with
  | nil => simp [spliceOps] at hmem
  | cons q A ih =>
    obtain ⟨a, oq⟩ := q
    rw [spliceOps_cons, List.mem_append, List.mem_append] at hmem
    rcases hmem with (hmem | hmem) | hmem
    · cases hka : lookupA L a with
      | none =>
        rw [hka] at hmem
        exact absurd hmem (List.not_mem_nil _)
      | some l2 =>
        rw [hka, List.mem_singleton] at hmem
        cases hmem
    · cases oq with
      | none => exact absurd hmem (List.not_mem_nil _)
      | some o2 =>
        rw [List.mem_singleton] at hmem
        injection hmem with hmem
        subst hmem
        exact ⟨a, List.mem_cons_self _ _⟩
    · obtain ⟨a2, ha2⟩ := ih hmem
      exact ⟨a2, List.mem_cons_of_mem _ ha2⟩

theorem nodup_middle_not_mem {α β : Type} {B1 B2 : List (α × β)} {x : α × β}
    (hnd : ((B1 ++ x :: B2).map Prod.fst).Nodup) :
    (∀ p ∈ B1, p.1 ≠ x.1) ∧ (∀ p ∈ B2, p.1 ≠ x.1) := by
  rw [List.map_append, List.map_cons, List.nodup_append] at hnd
  obtain ⟨h1, h2, hdisj⟩ := hnd
  rw [List.nodup_cons] at h2
  constructor
  · intro p hp hpx
    exact hdisj (List.mem_map.mpr ⟨p, hp, hpx⟩) (List.mem_cons_self _ _)
  · intro p hp hpx
    exact h2.1 (hpx ▸ List.mem_map.mpr ⟨p, hp, rfl⟩)

/-- C7 (amended): for every bytecode input accepted by the disassembler,
the memoized label table is a bijection between target addresses and
labels (so jumps to equal targets carry the same label and jumps to
distinct targets carry distinct labels), every decoded op's Label
argument is governed by the table, and whenever the target address of a
table entry carries a decoded instruction, that label is spliced into
the output exactly once, immediately before that instruction. -/
theorem c7_label_memoization (code : List Nat) (py : PyInternals) (stf : DisState)
    (hrun : disassembleCore py code 0 ⟨0, 0, [], []⟩ = some stf) :
    disassemble code py = some (spliceOps stf.addr_labels stf.addr_opsRev.reverse) ∧
    (∀ p1 ∈ stf.addr_labels, ∀ p2 ∈ stf.addr_labels, (p1.1 = p2.1 ↔ p1.2 = p2.2)) ∧
    (∀ o : Op, OpElem.op o ∈ spliceOps stf.addr_labels stf.addr_opsRev.reverse →
      ∀ l : Label, o.arg = some (OpArgVal.lbl l) → ∃ t, (t, l) ∈ stf.addr_labels) ∧
    (∀ t : Nat, ∀ l : Label, ∀ o : Op,
      (t, l) ∈ stf.addr_labels → (t, some o) ∈ stf.addr_opsRev →
      List.count (OpElem.lbl l) (spliceOps stf.addr_labels stf.addr_opsRev.reverse) = 1 ∧
      ∃ pre post, spliceOps stf.addr_labels stf.addr_opsRev.reverse
        = pre ++ OpElem.lbl l :: OpElem.op o :: post) := by
  have hgood0 : GoodDis 0 ⟨0, 0, [], []⟩ := by
    refine ⟨List.nodup_nil, List.nodup_nil, ?_, List.nodup_nil, ?_, ?_⟩
    all_goals intro p hp; exact absurd hp (List.not_mem_nil _)
  obtain ⟨⟨addr2, _, hgood⟩, _⟩ :=
    disasm_good py code.length code (Nat.le_refl _) 0 _ stf hrun hgood0
  obtain ⟨h1, h2, h3, h4, h5, h6⟩ := hgood
  refine ⟨?_, ?_, ?_, ?_⟩
  · rw [disassemble, hrun]
    rfl
  · intro p1 hp1 p2 hp2
    constructor
    · intro he
      have hp1a : (p1.1, p1.2) ∈ stf.addr_labels := hp1
      have hp2a : (p1.1, p2.2) ∈ stf.addr_labels := by
        rw [he]
        exact hp2
      exact nodup_fst_eq h1 hp1a hp2a
    · intro he
      have hp1a : (p1.1, p1.2) ∈ stf.addr_labels := hp1
      have hp2a : (p2.1, p1.2) ∈ stf.addr_labels := by
        rw [he]
        exact hp2
      exact nodup_snd_eq h2 hp1a hp2a
  · intro o hmem l hl
    obtain ⟨a, ha⟩ := spliceOps_op_mem _ _ _ hmem
    exact h6 (a, some o) (List.mem_reverse.mp ha) o rfl l hl
  · intro t l o htl hto
    have hA : (t, some o) ∈ stf.addr_opsRev.reverse := List.mem_reverse.mpr hto
    obtain ⟨B1, B2, hAB⟩ := List.append_of_mem hA
    have hndA : (stf.addr_opsRev.reverse.map Prod.fst).Nodup := by
      rw [List.map_reverse, List.nodup_reverse]
      exact h4
    rw [hAB] at hndA
    obtain ⟨hB1, hB2⟩ := nodup_middle_not_mem hndA
    have hlk : lookupA stf.addr_labels t = some l := lookupA_of_mem_nodup _ h1 t l htl
    have hsplit : spliceOps stf.addr_labels stf.addr_opsRev.reverse
        = spliceOps stf.addr_labels B1 ++
          OpElem.lbl l :: OpElem.op o :: spliceOps stf.addr_labels B2 := by
      rw [hAB, spliceOps_append, spliceOps_cons_found _ _ _ _ _ hlk]
    have hnotl : ∀ (B : List (Nat × Option Op)), (∀ p ∈ B, p.1 ≠ t) →
        OpElem.lbl l ∉ spliceOps stf.addr_labels B := by
      intro B hB
      refine spliceOps_lbl_not_mem _ _ _ ?_
      intro p hp heq
      have hpl : (p.1, l) ∈ stf.addr_labels := lookupA_mem _ _ _ heq
      exact hB p hp (nodup_snd_eq h2 hpl htl)
    have hn1 : OpElem.lbl l ∉ spliceOps stf.addr_labels B1 := hnotl B1 (fun p hp => hB1 p hp)
    have hn2 : OpElem.lbl l ∉ spliceOps stf.addr_labels B2 := hnotl B2 (fun p hp => hB2 p hp)
    have hne : (OpElem.lbl l : OpElem) ≠ OpElem.op o := by
      intro hc
      cases hc
    refine ⟨?_, spliceOps stf.addr_labels B1, spliceOps stf.addr_labels B2, hsplit⟩
    rw [hsplit, List.count_append, List.count_cons_self, List.count_cons_of_ne hne,
      List.count_eq_zero.mpr hn1, List.count_eq_zero.mpr hn2]

/-- Witness for C7 at the input JUMP_ABSOLUTE 3; NOP: the single memoized
label is spliced exactly once, immediately before the NOP at address 3. -/
theorem c7_witness :
    List.count (OpElem.lbl ⟨0⟩)
      (spliceOps [(3, (⟨0⟩ : Label))]
        ([(3, some ⟨"NOP", none⟩), (0, some ⟨"JUMP_ABSOLUTE", some (OpArgVal.lbl ⟨0⟩)⟩)]
          : List (Nat × Option Op)).reverse) = 1 ∧
    ∃ pre post,
      spliceOps [(3, (⟨0⟩ : Label))]
        ([(3, some ⟨"NOP", none⟩), (0, some ⟨"JUMP_ABSOLUTE", some (OpArgVal.lbl ⟨0⟩)⟩)]
          : List (Nat × Option Op)).reverse
        = pre ++ OpElem.lbl ⟨0⟩ :: OpElem.op ⟨"NOP", none⟩ :: post :=
  (c7_label_memoization [113, 3, 0, 9] py27
      ⟨0, 1, [(3, ⟨0⟩)], [(3, some ⟨"NOP", none⟩),
        (0, some ⟨"JUMP_ABSOLUTE", some (OpArgVal.lbl ⟨0⟩)⟩)]⟩
      (by decide)).2.2.2 3 ⟨0⟩ ⟨"NOP", none⟩ (by decide) (by decide)

theorem lookupA_cons {α β : Type} [DecidableEq α] (k : α) (v : β)
    (rest : List (α × β)) (x : α) :
    lookupA ((k, v) :: rest) x = if x = k then some v else lookupA rest x := rfl

theorem encode_op_some_len (c : Nat) (x : Int) (bs : List Nat)
    (h : encode_op c (some x) = .ok bs) : bs.length = 3 := by
  unfold encode_op at h
  dsimp only at h
  by_cases hc : c ≤ 255 ∧ 0 ≤ x.fdiv 256 ∧ x.fdiv 256 ≤ 255
  · rw [if_pos hc] at h
    injection h with h
    subst h
    rfl
  · rw [if_neg hc] at h
    cases h

theorem encode_op_none_len (c : Nat) (bs : List Nat)
    (h : encode_op c none = .ok bs) : bs.length = 1 := by
  unfold encode_op at h
  dsimp only at h
  by_cases hc : c ≤ 255
  · rw [if_pos hc] at h
    injection h with h
    subst h
    rfl
  · rw [if_neg hc] at h
    cases h

theorem emitArg_shape (py : PyInternals) (st : AsmState) (c : Nat) (a : Int)
    (st' : AsmState) (h : emitArg py st c a = .ok st') :
    st'.label_address = st.label_address ∧ st'.retry = st.retry ∧
    ((65536 ≤ a ∧ st'.address = st.address + 6 ∧
        st'.outputRev.length = st.outputRev.length + 6) ∨
     (a < 65536 ∧ st'.address = st.address + 3 ∧
        st'.outputRev.length = st.outputRev.length + 3)) := by
  unfold emitArg at h
  split at h
  · rename_i hge
    cases hext : encode_op py.extended_arg (some (a.fdiv 65536)) with
    | error e => rw [hext] at h; cases h
    | ok ext =>
      rw [hext] at h
      cases hbase : encode_op c (some (a.emod 65536)) with
      | error e => rw [hbase] at h; cases h
      | ok base =>
        rw [hbase] at h
        injection h with h
        subst h
        refine ⟨rfl, rfl, Or.inl ⟨hge, rfl, ?_⟩⟩
        have h1 := encode_op_some_len _ _ _ hext
        have h2 := encode_op_some_len _ _ _ hbase
        simp only [List.length_append, List.length_reverse]
        omega
  · rename_i hlt
    cases hbs : encode_op c (some a) with
    | error e => rw [hbs] at h; cases h
    | ok bs =>
      rw [hbs] at h
      injection h with h
      subst h
      refine ⟨rfl, rfl, Or.inr ⟨by omega, rfl, ?_⟩⟩
      have h1 := encode_op_some_len _ _ _ hbs
      simp only [List.length_append, List.length_reverse]
      omega

theorem stepLbl_cases (st : AsmState) (l : Label) :
    (lookupA st.label_address l = some st.address ∧ stepLbl st l = st) ∨
    (lookupA st.label_address l ≠ some st.address ∧
      stepLbl st l = { st with retry := true,
                               label_address := (l, st.address) :: st.label_address }) := by
  unfold stepLbl
  by_cases hl : lookupA st.label_address l = some st.address
  · exact Or.inl ⟨hl, by rw [if_pos hl]⟩
  · exact Or.inr ⟨hl, by rw [if_neg hl]⟩

theorem stepOp_shape (py : PyInternals) (ops : List OpElem) (st : AsmState) (o : Op)
    (st' : AsmState) (h : stepOp py ops st o = .ok st') :
    st'.label_address = st.label_address ∧ st'.retry = st.retry ∧
    st.address ≤ st'.address ∧ st'.address ≤ st.address + 6 := by
  rw [stepOp.eq_def] at h
  split at h
  · cases h
  · rename_i c hop
    split at h
    · -- no argument
      split at h
      · cases h
      · split at h
        · cases h
        · rename_i bs hbs
          injection h with h
          subst h
          refine ⟨rfl, rfl, ?_, ?_⟩
          · show st.address ≤ st.address + 1
            omega
          · show st.address + 1 ≤ st.address + 6
            omega
    · -- has an argument
      rename_i a0
      split at h
      · cases h
      · split at h
        · -- Label argument
          split at h
          · cases h
          · split at h
            · cases h
            · split at h
              · -- unresolved label: size estimate
                split at h
                · injection h with h
                  subst h
                  refine ⟨rfl, rfl, ?_, ?_⟩
                  · show st.address ≤ st.address + 6
                    omega
                  · show st.address + 6 ≤ st.address + 6
                    omega
                · injection h with h
                  subst h
                  refine ⟨rfl, rfl, ?_, ?_⟩
                  · show st.address ≤ st.address + 3
                    omega
                  · show st.address + 3 ≤ st.address + 6
                    omega
              · -- resolved: emit
                obtain ⟨h1, h2, h3⟩ := emitArg_shape _ _ _ _ _ h
                rcases h3 with ⟨_, ha, _⟩ | ⟨_, ha, _⟩ <;>
                  exact ⟨h1, h2, by omega, by omega⟩
        · -- integer argument
          split at h
          · cases h
          · obtain ⟨h1, h2, h3⟩ := emitArg_shape _ _ _ _ _ h
            rcases h3 with ⟨_, ha, _⟩ | ⟨_, ha, _⟩ <;>
              exact ⟨h1, h2, by omega, by omega⟩

theorem asmStep_shape (py : PyInternals) (ops : List OpElem) (st : AsmState)
    (e : OpElem) (st' : AsmState) (h : asmStep py ops st e = .ok st') :
    st.address ≤ st'.address ∧ st'.address ≤ st.address + 6 ∧
    (st.retry = true → st'.retry = true) ∧
    (∀ l v, lookupA st'.label_address l = some v →
      lookupA st.label_address l = some v ∨ v = st.address) := by
  cases e with
  | lbl l =>
    rw [asmStep] at h
    injection h with h
    subst h
    rcases stepLbl_cases st l with ⟨hl, hs⟩ | ⟨hl, hs⟩
    · rw [hs]
      exact ⟨Nat.le_refl _, by omega, fun hr => hr, fun l2 v hv => Or.inl hv⟩
    · rw [hs]
      refine ⟨Nat.le_refl _, by show st.address ≤ st.address + 6; omega, fun hr => rfl, ?_⟩
      intro l2 v hv
      rw [lookupA_cons] at hv
      by_cases hll : l2 = l
      · rw [if_pos hll] at hv
        injection hv with hv
        exact Or.inr hv.symm
      · rw [if_neg hll] at hv
        exact Or.inl hv
  | op o =>
    rw [asmStep] at h
    obtain ⟨h1, h2, h3, h4⟩ := stepOp_shape _ _ _ _ _ h
    exact ⟨h3, h4, fun hr => h2 ▸ hr, fun l v hv => Or.inl (h1 ▸ hv)⟩

theorem asmPass_nil (py : PyInternals) (ops : List OpElem) (st : AsmState) :
    asmPass py ops st [] = .ok st := rfl

theorem asmPass_cons (py : PyInternals) (ops : List OpElem) (st : AsmState)
    (e : OpElem) (rest : List OpElem) :
    asmPass py ops st (e :: rest) =
      match asmStep py ops st e with
      | .error err => .error err
      | .ok st' => asmPass py ops st' rest := rfl

theorem labelElems_cons_op (o : Op) (rest : List OpElem) :
    labelElems (.op o :: rest) = labelElems rest := rfl

theorem labelElems_cons_lbl (l : Label) (rest : List OpElem) :
    labelElems (.lbl l :: rest) = l :: labelElems rest := rfl

theorem asmPass_append (py : PyInternals) (ops : List OpElem) :
    ∀ (A B : List OpElem) (st st2 : AsmState),
    asmPass py ops st (A ++ B) = .ok st2 →
    ∃ stm, asmPass py ops st A = .ok stm ∧ asmPass py ops stm B = .ok st2 := by
  intro A
  induction A with
  | nil => exact fun B st st2 h => ⟨st, rfl, h⟩
  | cons e A ih =>
    intro B st st2 h
    rw [List.cons_append, asmPass_cons] at h
    cases hstep : asmStep py ops st e with
    | error e2 => rw [hstep] at h; cases h
    | ok st1 =>
      rw [hstep] at h
      obtain ⟨stm, h1, h2⟩ := ih B st1 st2 h
      refine ⟨stm, ?_, h2⟩
      rw [asmPass_cons, hstep]
      exact h1

theorem asmPass_addr_mono (py : PyInternals) (ops : List OpElem) :
    ∀ (rest : List OpElem) (st st2 : AsmState),
    asmPass py ops st rest = .ok st2 → st.address ≤ st2.address := by
  intro rest
  induction rest with
  | nil =>
    intro st st2 h
    injection h with h
    subst h
    exact Nat.le_refl _
  | cons e rest ih =>
    intro st st2 h
    rw [asmPass_cons] at h
    cases hstep : asmStep py ops st e with
    | error e2 => rw [hstep] at h; cases h
    | ok st1 =>
      rw [hstep] at h
      have h1 := (asmStep_shape _ _ _ _ _ hstep).1
      have h2 := ih st1 st2 h
      omega

theorem asmPass_addr_le (py : PyInternals) (ops : List OpElem) :
    ∀ (rest : List OpElem) (st st2 : AsmState),
    asmPass py ops st rest = .ok st2 → st2.address ≤ st.address + 6 * rest.length := by
  intro rest
  induction rest with
  | nil =>
    intro st st2 h
    injection h with h
    subst h
    omega
  | cons e rest ih =>
    intro st st2 h
    rw [asmPass_cons] at h
    cases hstep : asmStep py ops st e with
    | error e2 => rw [hstep] at h; cases h
    | ok st1 =>
      rw [hstep] at h
      have h1 := (asmStep_shape _ _ _ _ _ hstep).2.1
      have h2 := ih st1 st2 h
      rw [List.length_cons]
      omega

theorem asmPass_lookup_lb (py : PyInternals) (ops : List OpElem) :
    ∀ (rest : List OpElem) (st st2 : AsmState),
    asmPass py ops st rest = .ok st2 →
    ∀ l v, lookupA st2.label_address l = some v →
      lookupA st.label_address l = some v ∨ st.address ≤ v := by
  intro rest
  induction rest with
  | nil =>
    intro st st2 h l v hv
    injection h with h
    subst h
    exact Or.inl hv
  | cons e rest ih =>
    intro st st2 h l v hv
    rw [asmPass_cons] at h
    cases hstep : asmStep py ops st e with
    | error e2 => rw [hstep] at h; cases h
    | ok st1 =>
      rw [hstep] at h
      obtain ⟨hm, _, _, hmap⟩ := asmStep_shape _ _ _ _ _ hstep
      rcases ih st1 st2 h l v hv with hv1 | hv1
      · rcases hmap l v hv1 with hv2 | hv2
        · exact Or.inl hv2
        · omega
      · omega

theorem asmPass_lookup_ub (py : PyInternals) (ops : List OpElem) :
    ∀ (rest : List OpElem) (st st2 : AsmState),
    asmPass py ops st rest = .ok st2 →
    ∀ l v, lookupA st2.label_address l = some v →
      lookupA st.label_address l = some v ∨ v ≤ st2.address := by
  intro rest
  induction rest with
  | nil =>
    intro st st2 h l v hv
    injection h with h
    subst h
    exact Or.inl hv
  | cons e rest ih =>
    intro st st2 h l v hv
    rw [asmPass_cons] at h
    cases hstep : asmStep py ops st e with
    | error e2 => rw [hstep] at h; cases h
    | ok st1 =>
      rw [hstep] at h
      obtain ⟨hm, _, _, hmap⟩ := asmStep_shape _ _ _ _ _ hstep
      have hmono := asmPass_addr_mono py ops rest st1 st2 h
      rcases ih st1 st2 h l v hv with hv1 | hv1
      · rcases hmap l v hv1 with hv2 | hv2
        · exact Or.inl hv2
        · omega
      · omega

theorem asmPass_retry_sticky (py : PyInternals) (ops : List OpElem) :
    ∀ (rest : List OpElem) (st st2 : AsmState),
    asmPass py ops st rest = .ok st2 → st.retry = true → st2.retry = true := by
  intro rest
  induction rest with
  | nil =>
    intro st st2 h hr
    injection h with h
    subst h
    exact hr
  | cons e rest ih =>
    intro st st2 h hr
    rw [asmPass_cons] at h
    cases hstep : asmStep py ops st e with
    | error e2 => rw [hstep] at h; cases h
    | ok st1 =>
      rw [hstep] at h
      exact ih st1 st2 h ((asmStep_shape _ _ _ _ _ hstep).2.2.1 hr)

theorem asmStep_retryFree (py : PyInternals) (ops : List OpElem) (st : AsmState)
    (e : OpElem) (st' : AsmState) (h : asmStep py ops st e = .ok st')
    (hr : st'.retry = false) :
    st.retry = false ∧ st'.label_address = st.label_address := by
  cases e with
  | lbl l =>
    rw [asmStep] at h
    injection h with h
    subst h
    rcases stepLbl_cases st l with ⟨hl, hs⟩ | ⟨hl, hs⟩
    · rw [hs]
      rw [hs] at hr
      exact ⟨hr, rfl⟩
    · rw [hs] at hr
      have hr2 : true = false := hr
      cases hr2
  | op o =>
    rw [asmStep] at h
    obtain ⟨h1, h2, _, _⟩ := stepOp_shape _ _ _ _ _ h
    rw [h2] at hr
    exact ⟨hr, h1⟩

theorem asmPass_retryFree (py : PyInternals) (ops : List OpElem) :
    ∀ (rest : List OpElem) (st st2 : AsmState),
    asmPass py ops st rest = .ok st2 → st2.retry = false →
    st.retry = false ∧ st2.label_address = st.label_address := by
  intro rest
  induction rest with
  | nil =>
    intro st st2 h hr
    injection h with h
    subst h
    exact ⟨hr, rfl⟩
  | cons e rest ih =>
    intro st st2 h hr
    rw [asmPass_cons] at h
    cases hstep : asmStep py ops st e with
    | error e2 => rw [hstep] at h; cases h
    | ok st1 =>
      rw [hstep] at h
      obtain ⟨hr1, hmap1⟩ := ih st1 st2 h hr
      obtain ⟨hr0, hmap0⟩ := asmStep_retryFree _ _ _ _ _ hstep hr1
      exact ⟨hr0, hmap1.trans hmap0⟩

theorem asmPass_lookup_stable (py : PyInternals) (ops : List OpElem) :
    ∀ (rest : List OpElem) (st st2 : AsmState),
    asmPass py ops st rest = .ok st2 →
    ∀ l, l ∉ labelElems rest →
      lookupA st2.label_address l = lookupA st.label_address l := by
  intro rest
  induction rest with
  | nil =>
    intro st st2 h l hl
    injection h with h
    subst h
    rfl
  | cons e rest ih =>
    intro st st2 h l hl
    rw [asmPass_cons] at h
    cases e with
    | op o =>
      cases hstep : asmStep py ops st (.op o) with
      | error e2 => rw [hstep] at h; cases h
      | ok st1 =>
        rw [hstep] at h
        rw [labelElems_cons_op] at hl
        rw [ih st1 st2 h l hl]
        rw [asmStep] at hstep
        exact congrArg (fun m => lookupA m l) (stepOp_shape _ _ _ _ _ hstep).1
    | lbl l2 =>
      cases hstep : asmStep py ops st (.lbl l2) with
      | error e2 => rw [hstep] at h; cases h
      | ok st1 =>
        rw [hstep] at h
        rw [labelElems_cons_lbl, List.mem_cons] at hl
        push_neg at hl
        rw [ih st1 st2 h l hl.2]
        rw [asmStep] at hstep
        injection hstep with hstep
        subst hstep
        rcases stepLbl_cases st l2 with ⟨_, hs⟩ | ⟨_, hs⟩
        · rw [hs]
        · rw [hs, lookupA_cons, if_neg hl.1]

theorem retryFree_labels (py : PyInternals) (ops : List OpElem) :
    ∀ (rest : List OpElem) (st st2 : AsmState),
    asmPass py ops st rest = .ok st2 → st2.retry = false →
    ∀ l, OpElem.lbl l ∈ rest → lookupA st.label_address l = some st.address ∨
      ∃ v, lookupA st.label_address l = some v := by
  intro rest
  induction rest with
  | nil =>
    intro st st2 h hr l hl
    exact absurd hl (List.not_mem_nil _)
  | cons e rest ih =>
    intro st st2 h hr l hl
    rw [asmPass_cons] at h
    cases hstep : asmStep py ops st e with
    | error e2 => rw [hstep] at h; cases h
    | ok st1 =>
      rw [hstep] at h
      cases e with
      | lbl l2 =>
        rw [asmStep] at hstep
        injection hstep with hstep
        rcases stepLbl_cases st l2 with ⟨hl2, hs⟩ | ⟨hl2, hs⟩
        · rcases List.mem_cons.mp hl with heq | hmem
          · injection heq with heq
            subst heq
            exact Or.inr ⟨st.address, hl2⟩
          · have hst1 : st1 = st := by rw [← hstep, hs]
            rw [hst1] at h
            exact ih st st2 h hr l hmem
        · exfalso
          have hr1 : st1.retry = true := by
            rw [← hstep, hs]
          have := asmPass_retry_sticky py ops rest st1 st2 h hr1
          rw [this] at hr
          cases hr
      | op o =>
        rw [asmStep] at hstep
        have hmap := (stepOp_shape _ _ _ _ _ hstep).1
        rcases List.mem_cons.mp hl with heq | hmem
        · cases heq
        · rcases ih st1 st2 h hr l hmem with hv | ⟨v, hv⟩
          · rw [hmap] at hv
            exact Or.inr ⟨st1.address, hv⟩
          · rw [hmap] at hv
            exact Or.inr ⟨v, hv⟩

theorem stepOp_lockstep (py : PyInternals) (ops : List OpElem) (M0 : List (Label × Nat))
    (hdisj : ∀ c, py.hasjrel.contains c = true → py.hasjabs.contains c = false)
    (ps cs ps1 cs1 : AsmState) (o : Op)
    (hp1 : stepOp py ops ps o = .ok ps1) (hc1 : stepOp py ops cs o = .ok cs1)
    (hA : ps.address ≤ cs.address) (hM : cs.address % 3 = ps.address % 3)
    (hRel3 : MapRel ps.label_address cs.label_address)
    (hRel4 : ∀ l, lookupA ps.label_address l = none →
      lookupA cs.label_address l = lookupA M0 l)
    (hM0 : ∀ l v, lookupA M0 l = some v →
      lookupA ps.label_address l = some v ∨ ps.address ≤ v) :
    ps1.address ≤ cs1.address ∧ cs1.address % 3 = ps1.address % 3 := by
  rw [stepOp.eq_def] at hp1 hc1
  cases hop : py.opmap o.name with
  | none => rw [hop] at hp1; dsimp only at hp1; cases hp1
  | some c =>
    rw [hop] at hp1 hc1
    dsimp only at hp1 hc1
    cases harg : o.arg with
    | none =>
      rw [harg] at hp1 hc1
      dsimp only at hp1 hc1
      by_cases hth : c ≥ py.have_argument
      · rw [if_pos hth] at hp1
        cases hp1
      · rw [if_neg hth] at hp1 hc1
        cases henc : encode_op c none with
        | error e => rw [henc] at hp1; cases hp1
        | ok bs =>
          rw [henc] at hp1 hc1
          dsimp only at hp1 hc1
          injection hp1 with hp1
          injection hc1 with hc1
          subst hp1
          subst hc1
          constructor
          · show ps.address + 1 ≤ cs.address + 1
            omega
          · show (cs.address + 1) % 3 = (ps.address + 1) % 3
            omega
    | some a0 =>
      rw [harg] at hp1 hc1
      dsimp only at hp1 hc1
      by_cases hlt : c < py.have_argument
      · rw [if_pos hlt] at hp1
        cases hp1
      · rw [if_neg hlt] at hp1 hc1
        cases a0 with
        | int n =>
          dsimp only at hp1 hc1
          by_cases hj : py.hasjump c = true
          · rw [if_pos hj] at hp1
            cases hp1
          · rw [if_neg hj] at hp1 hc1
            obtain ⟨_, _, hsp⟩ := emitArg_shape _ _ _ _ _ hp1
            obtain ⟨_, _, hsc⟩ := emitArg_shape _ _ _ _ _ hc1
            rcases hsp with ⟨hg1, ha1, _⟩ | ⟨hg1, ha1, _⟩ <;>
              rcases hsc with ⟨hg2, ha2, _⟩ | ⟨hg2, ha2, _⟩ <;>
              (rw [ha1, ha2]; constructor) <;> omega
        | lbl l =>
          dsimp only at hp1 hc1
          by_cases hj : py.hasjump c = true
          · rw [if_neg (not_not_intro hj)] at hp1 hc1
            by_cases hin : labelInOps l ops = true
            · rw [if_neg (not_not_intro hin)] at hp1 hc1
              cases hlp : lookupA ps.label_address l with
              | some v =>
                rw [hlp] at hp1
                dsimp only at hp1
                obtain ⟨v2, hlc, hle, hmod⟩ := hRel3 l v hlp
                rw [hlc] at hc1
                dsimp only at hc1
                by_cases hrel : py.hasjrel.contains c = true
                · rw [if_pos hrel] at hp1 hc1
                  obtain ⟨_, _, hsp⟩ := emitArg_shape _ _ _ _ _ hp1
                  obtain ⟨_, _, hsc⟩ := emitArg_shape _ _ _ _ _ hc1
                  rcases hsp with ⟨hg1, ha1, _⟩ | ⟨hg1, ha1, _⟩ <;>
                    rcases hsc with ⟨hg2, ha2, _⟩ | ⟨hg2, ha2, _⟩ <;>
                    (rw [ha1, ha2]; constructor) <;> omega
                · rw [if_neg hrel] at hp1 hc1
                  obtain ⟨_, _, hsp⟩ := emitArg_shape _ _ _ _ _ hp1
                  obtain ⟨_, _, hsc⟩ := emitArg_shape _ _ _ _ _ hc1
                  rcases hsp with ⟨hg1, ha1, _⟩ | ⟨hg1, ha1, _⟩ <;>
                    rcases hsc with ⟨hg2, ha2, _⟩ | ⟨hg2, ha2, _⟩ <;>
                    (rw [ha1, ha2]; constructor) <;> omega
              | none =>
                rw [hlp] at hp1
                dsimp only at hp1
                have hlc := hRel4 l hlp
                cases hm0 : lookupA M0 l with
                | none =>
                  rw [hm0] at hlc
                  rw [hlc] at hc1
                  dsimp only at hc1
                  by_cases hep : py.hasjabs.contains c = true ∧ ps.address > 65535
                  · rw [if_pos hep] at hp1
                    injection hp1 with hp1
                    subst hp1
                    have hec : py.hasjabs.contains c = true ∧ cs.address > 65535 :=
                      ⟨hep.1, by omega⟩
                    rw [if_pos hec] at hc1
                    injection hc1 with hc1
                    subst hc1
                    constructor
                    · show ps.address + 6 ≤ cs.address + 6
                      omega
                    · show (cs.address + 6) % 3 = (ps.address + 6) % 3
                      omega
                  · rw [if_neg hep] at hp1
                    injection hp1 with hp1
                    subst hp1
                    by_cases hec : py.hasjabs.contains c = true ∧ cs.address > 65535
                    · rw [if_pos hec] at hc1
                      injection hc1 with hc1
                      subst hc1
                      constructor
                      · show ps.address + 3 ≤ cs.address + 6
                        omega
                      · show (cs.address + 6) % 3 = (ps.address + 3) % 3
                        omega
                    · rw [if_neg hec] at hc1
                      injection hc1 with hc1
                      subst hc1
                      constructor
                      · show ps.address + 3 ≤ cs.address + 3
                        omega
                      · show (cs.address + 3) % 3 = (ps.address + 3) % 3
                        omega
                | some v2 =>
                  rw [hm0] at hlc
                  rw [hlc] at hc1
                  dsimp only at hc1
                  have hv2 : ps.address ≤ v2 := by
                    rcases hM0 l v2 hm0 with hl2 | hv2
                    · rw [hl2] at hlp
                      cases hlp
                    · exact hv2
                  by_cases hrel : py.hasjrel.contains c = true
                  · rw [if_pos hrel] at hc1
                    have habs : py.hasjabs.contains c = false := hdisj c hrel
                    have hep : ¬(py.hasjabs.contains c = true ∧ ps.address > 65535) := by
                      intro hcc
                      rw [habs] at hcc
                      cases hcc.1
                    rw [if_neg hep] at hp1
                    injection hp1 with hp1
                    subst hp1
                    obtain ⟨_, _, hsc⟩ := emitArg_shape _ _ _ _ _ hc1
                    rcases hsc with ⟨hg2, ha2, _⟩ | ⟨hg2, ha2, _⟩
                    · rw [ha2]
                      constructor
                      · show ps.address + 3 ≤ cs.address + 6
                        omega
                      · show (cs.address + 6) % 3 = (ps.address + 3) % 3
                        omega
                    · rw [ha2]
                      constructor
                      · show ps.address + 3 ≤ cs.address + 3
                        omega
                      · show (cs.address + 3) % 3 = (ps.address + 3) % 3
                        omega
                  · rw [if_neg hrel] at hc1
                    obtain ⟨_, _, hsc⟩ := emitArg_shape _ _ _ _ _ hc1
                    by_cases hep : py.hasjabs.contains c = true ∧ ps.address > 65535
                    · rw [if_pos hep] at hp1
                      injection hp1 with hp1
                      subst hp1
                      rcases hsc with ⟨hg2, ha2, _⟩ | ⟨hg2, ha2, _⟩
                      · rw [ha2]
                        constructor
                        · show ps.address + 6 ≤ cs.address + 6
                          omega
                        · show (cs.address + 6) % 3 = (ps.address + 6) % 3
                          omega
                      · exfalso
                        have hp65 := hep.2
                        omega
                    · rw [if_neg hep] at hp1
                      injection hp1 with hp1
                      subst hp1
                      rcases hsc with ⟨hg2, ha2, _⟩ | ⟨hg2, ha2, _⟩
                      · rw [ha2]
                        constructor
                        · show ps.address + 3 ≤ cs.address + 6
                          omega
                        · show (cs.address + 6) % 3 = (ps.address + 3) % 3
                          omega
                      · rw [ha2]
                        constructor
                        · show ps.address + 3 ≤ cs.address + 3
                          omega
                        · show (cs.address + 3) % 3 = (ps.address + 3) % 3
                          omega
            · rw [if_pos hin] at hp1
              cases hp1
          · rw [if_pos hj] at hp1
            cases hp1

theorem stepLbl_lockstep (M0 : List (Label × Nat)) (ps cs : AsmState) (l : Label)
    (hrel : PassRel M0 ps cs) :
    PassRel M0 (stepLbl ps l) (stepLbl cs l) := by
  obtain ⟨hA, hM, h3, h4⟩ := hrel
  rcases stepLbl_cases ps l with ⟨hpl, hps⟩ | ⟨hpl, hps⟩ <;>
    rcases stepLbl_cases cs l with ⟨hcl, hcs⟩ | ⟨hcl, hcs⟩ <;>
    rw [hps, hcs]
  · exact ⟨hA, hM, h3, h4⟩
  · refine ⟨hA, hM, ?_, ?_⟩
    · intro l2 v hv
      by_cases hl2 : l2 = l
      · subst hl2
        rw [hpl] at hv
        injection hv with hv
        subst hv
        exact ⟨cs.address, by rw [lookupA_cons, if_pos rfl], hA, hM⟩
      · obtain ⟨v2, hv2, hle, hmod⟩ := h3 l2 v hv
        exact ⟨v2, by rw [lookupA_cons, if_neg hl2]; exact hv2, hle, hmod⟩
    · intro l2 hn
      have hl2 : l2 ≠ l := by
        intro he
        subst he
        rw [hpl] at hn
        cases hn
      rw [lookupA_cons, if_neg hl2]
      exact h4 l2 hn
  · refine ⟨hA, hM, ?_, ?_⟩
    · intro l2 v hv
      by_cases hl2 : l2 = l
      · subst hl2
        rw [lookupA_cons, if_pos rfl] at hv
        injection hv with hv
        subst hv
        exact ⟨cs.address, hcl, hA, hM⟩
      · rw [lookupA_cons, if_neg hl2] at hv
        exact h3 l2 v hv
    · intro l2 hn
      by_cases hl2 : l2 = l
      · subst hl2
        rw [lookupA_cons, if_pos rfl] at hn
        cases hn
      · rw [lookupA_cons, if_neg hl2] at hn
        exact h4 l2 hn
  · refine ⟨hA, hM, ?_, ?_⟩
    · intro l2 v hv
      by_cases hl2 : l2 = l
      · subst hl2
        rw [lookupA_cons, if_pos rfl] at hv
        injection hv with hv
        subst hv
        exact ⟨cs.address, by rw [lookupA_cons, if_pos rfl], hA, hM⟩
      · rw [lookupA_cons, if_neg hl2] at hv
        obtain ⟨v2, hv2, hle, hmod⟩ := h3 l2 v hv
        exact ⟨v2, by rw [lookupA_cons, if_neg hl2]; exact hv2, hle, hmod⟩
    · intro l2 hn
      by_cases hl2 : l2 = l
      · subst hl2
        rw [lookupA_cons, if_pos rfl] at hn
        cases hn
      · rw [lookupA_cons, if_neg hl2] at hn
        rw [lookupA_cons, if_neg hl2]
        exact h4 l2 hn

theorem asmPass_lockstep (py : PyInternals) (ops : List OpElem)
    (hdisj : ∀ c, py.hasjrel.contains c = true → py.hasjabs.contains c = false) :
    ∀ (rest : List OpElem) (ps cs pf cf : AsmState),
    asmPass py ops ps rest = .ok pf →
    asmPass py ops cs rest = .ok cf →
    PassRel pf.label_address ps cs →
    PassRel pf.label_address pf cf := by
  intro rest
  induction rest with
  | nil =>
    intro ps cs pf cf hp hc hrel
    injection hp with hp
    injection hc with hc
    subst hp
    subst hc
    exact hrel
  | cons e rest ih =>
    intro ps cs pf cf hp hc hrel
    rw [asmPass_cons] at hp hc
    cases hps : asmStep py ops ps e with
    | error e2 => rw [hps] at hp; cases hp
    | ok ps1 =>
      rw [hps] at hp
      cases hcs : asmStep py ops cs e with
      | error e2 => rw [hcs] at hc; cases hc
      | ok cs1 =>
        rw [hcs] at hc
        refine ih ps1 cs1 pf cf hp hc ?_
        obtain ⟨hA, hM, h3, h4⟩ := hrel
        cases e with
        | lbl l =>
          rw [asmStep] at hps hcs
          injection hps with hps
          injection hcs with hcs
          rw [← hps, ← hcs]
          exact stepLbl_lockstep _ ps cs l ⟨hA, hM, h3, h4⟩
        | op o =>
          rw [asmStep] at hps hcs
          have hshape := stepOp_shape _ _ _ _ _ hps
          have hcshape := stepOp_shape _ _ _ _ _ hcs
          have hM0 : ∀ l v, lookupA pf.label_address l = some v →
              lookupA ps.label_address l = some v ∨ ps.address ≤ v := by
            intro l v hv
            rcases asmPass_lookup_lb py ops rest ps1 pf hp l v hv with h1 | h1
            · rw [hshape.1] at h1
              exact Or.inl h1
            · exact Or.inr (le_trans hshape.2.2.1 h1)
          have hlock := stepOp_lockstep py ops pf.label_address hdisj ps cs ps1 cs1 o
            hps hcs hA hM h3 h4 hM0
          refine ⟨hlock.1, hlock.2, ?_, ?_⟩
          · rw [hshape.1, hcshape.1]
            exact h3
          · rw [hshape.1, hcshape.1]
            exact h4

theorem passPair_MapRel (py : PyInternals) (ops : List OpElem)
    (hdisj : ∀ c, py.hasjrel.contains c = true → py.hasjabs.contains c = false)
    (m : List (Label × Nat)) (st : AsmState)
    (hgm : GoodMap py ops m)
    (hpass : asmPass py ops ⟨[], 0, m, false⟩ ops = .ok st) :
    MapRel m st.label_address := by
  rcases hgm with rfl | ⟨mp, stp, hmr, hpp, hml⟩
  · intro l v hv
    cases hv
  · have hbase : PassRel stp.label_address ⟨[], 0, mp, false⟩ ⟨[], 0, m, false⟩ := by
      refine ⟨Nat.le_refl _, rfl, hmr, ?_⟩
      intro l hn
      rw [hml]
    have hfin := asmPass_lockstep py ops hdisj ops ⟨[], 0, mp, false⟩ ⟨[], 0, m, false⟩
      stp st hpp hpass hbase
    have h3 := hfin.2.2.1
    rw [hml] at h3
    exact h3

theorem pass_retry_change (py : PyInternals) (ops : List OpElem)
    (m : List (Label × Nat)) :
    ∀ (rest : List OpElem) (st st2 : AsmState),
    asmPass py ops st rest = .ok st2 →
    (∀ l, l ∈ labelElems rest → lookupA st.label_address l = lookupA m l) →
    (labelElems rest).Nodup →
    st2.retry = true →
    st.retry = true ∨
      ∃ l, l ∈ labelElems rest ∧ lookupA m l ≠ lookupA st2.label_address l := by
  intro rest
  induction rest with
  | nil =>
    intro st st2 h hagree hnd hr
    injection h with h
    subst h
    exact Or.inl hr
  | cons e rest ih =>
    intro st st2 h hagree hnd hr
    rw [asmPass_cons] at h
    cases hstep : asmStep py ops st e with
    | error e2 => rw [hstep] at h; cases h
    | ok st1 =>
      rw [hstep] at h
      cases e with
      | op o =>
        rw [asmStep] at hstep
        have hshape := stepOp_shape _ _ _ _ _ hstep
        rw [labelElems_cons_op] at hagree hnd
        have hagree1 : ∀ l, l ∈ labelElems rest →
            lookupA st1.label_address l = lookupA m l := by
          intro l hl
          rw [hshape.1]
          exact hagree l hl
        rcases ih st1 st2 h hagree1 hnd hr with hr1 | hex
        · rw [hshape.2.1] at hr1
          exact Or.inl hr1
        · exact Or.inr hex
      | lbl l2 =>
        rw [asmStep] at hstep
        injection hstep with hstep
        rw [labelElems_cons_lbl] at hagree hnd
        rw [List.nodup_cons] at hnd
        rcases stepLbl_cases st l2 with ⟨hl2, hs⟩ | ⟨hl2, hs⟩
        · have hst1 : st1 = st := by rw [← hstep, hs]
          subst hst1
          have hagree1 : ∀ l, l ∈ labelElems rest →
              lookupA st1.label_address l = lookupA m l := fun l hl =>
            hagree l (List.mem_cons_of_mem _ hl)
          rcases ih st1 st2 h hagree1 hnd.2 hr with hr1 | ⟨l, hl, hne⟩
          · exact Or.inl hr1
          · exact Or.inr ⟨l, List.mem_cons_of_mem _ hl, hne⟩
        · refine Or.inr ⟨l2, List.mem_cons_self _ _, ?_⟩
          have hstable : lookupA st2.label_address l2 = lookupA st1.label_address l2 :=
            asmPass_lookup_stable py ops rest st1 st2 h l2 hnd.1
          have hl1 : lookupA st1.label_address l2 = some st.address := by
            rw [← hstep, hs, lookupA_cons, if_pos rfl]
          rw [hstable, hl1]
          intro hcon
          rw [← hagree l2 (List.mem_cons_self _ _)] at hcon
          exact hl2 hcon

theorem list_sum_lt_of_mem {α : Type} (f g : α → Nat) :
    ∀ (L : List α), (∀ x ∈ L, f x ≤ g x) → (∃ x ∈ L, f x < g x) →
    (L.map f).sum < (L.map g).sum := by
  intro L
  induction L with
  | nil =>
    intro _ hex
    obtain ⟨x, hx, _⟩ := hex
    exact absurd hx (List.not_mem_nil _)
  | cons a L ih =>
    intro hle hex
    rw [List.map_cons, List.map_cons, List.sum_cons, List.sum_cons]
    have hsum_le : (L.map f).sum ≤ (L.map g).sum := by
      refine List.sum_le_sum ?_
      intro x hx
      exact hle x (List.mem_cons_of_mem _ hx)
    obtain ⟨x, hx, hlt⟩ := hex
    rcases List.mem_cons.mp hx with rfl | hx
    · omega
    · have hlt2 := ih (fun y hy => hle y (List.mem_cons_of_mem _ hy)) ⟨x, hx, hlt⟩
      have ha := hle a (List.mem_cons_self _ _)
      omega

theorem mapScore_lt (ops : List OpElem) (m m2 : List (Label × Nat))
    (hrel : MapRel m m2)
    (hex : ∃ l, l ∈ labelElems ops ∧ lookupA m l ≠ lookupA m2 l) :
    mapScore ops m < mapScore ops m2 := by
  unfold mapScore
  refine list_sum_lt_of_mem _ _ _ ?_ ?_
  · intro l _
    cases hl : lookupA m l with
    | none => exact Nat.zero_le _
    | some v =>
      obtain ⟨v2, hv2, hle, _⟩ := hrel l v hl
      rw [hv2]
      show v + 1 ≤ v2 + 1
      omega
  · obtain ⟨l, hmem, hne⟩ := hex
    refine ⟨l, hmem, ?_⟩
    cases hl : lookupA m l with
    | none =>
      cases hl2 : lookupA m2 l with
      | none =>
        rw [hl, hl2] at hne
        exact absurd rfl hne
      | some v2 =>
        show 0 < v2 + 1
        omega
    | some v =>
      obtain ⟨v2, hv2, hle, _⟩ := hrel l v hl
      rw [hv2]
      rw [hl, hv2] at hne
      have hvne : v ≠ v2 := by
        intro he
        rw [he] at hne
        exact hne rfl
      show v + 1 < v2 + 1
      omega

theorem mapScore_le (ops : List OpElem) (m : List (Label × Nat))
    (hbdd : BddMap ops m) :
    mapScore ops m ≤ ops.length * (6 * ops.length + 1) := by
  unfold mapScore
  have h1 : ((labelElems ops).map fun l =>
      match lookupA m l with
      | none => 0
      | some v => v + 1).sum ≤
      ((labelElems ops).map fun l =>
      match lookupA m l with
      | none => 0
      | some v => v + 1).length * (6 * ops.length + 1) := by
    refine List.sum_le_card_nsmul _ _ ?_
    intro x hx
    obtain ⟨l, _, hlx⟩ := List.mem_map.mp hx
    subst hlx
    cases hl : lookupA m l with
    | none => exact Nat.zero_le _
    | some v =>
      have := hbdd l v hl
      show v + 1 ≤ 6 * ops.length + 1
      omega
  rw [List.length_map] at h1
  have h2 : (labelElems ops).length ≤ ops.length := List.length_filterMap_le _ _
  have h3 : (labelElems ops).length * (6 * ops.length + 1) ≤
      ops.length * (6 * ops.length + 1) := Nat.mul_le_mul_right _ h2
  omega

theorem mapScore_nil (ops : List OpElem) : mapScore ops [] = 0 := by
  unfold mapScore
  induction labelElems ops with
  | nil => rfl
  | cons l L ih =>
    rw [List.map_cons, List.sum_cons, ih]
    rfl

theorem bddMap_step (py : PyInternals) (ops : List OpElem)
    (m : List (Label × Nat)) (st : AsmState)
    (hpass : asmPass py ops ⟨[], 0, m, false⟩ ops = .ok st)
    (hbdd : BddMap ops m) : BddMap ops st.label_address := by
  intro l v hv
  rcases asmPass_lookup_ub py ops ops ⟨[], 0, m, false⟩ st hpass l v hv with h1 | h1
  · exact hbdd l v h1
  · have h2 := asmPass_addr_le py ops ops ⟨[], 0, m, false⟩ st hpass
    have h3 : (AsmState.mk [] 0 m false).address = 0 := rfl
    omega

theorem asmLoop_succ (py : PyInternals) (ops : List OpElem) (fuel : Nat)
    (m : List (Label × Nat)) :
    asmLoop py ops (fuel + 1) m =
      match asmPass py ops ⟨[], 0, m, false⟩ ops with
      | .error e => .err e
      | .ok st => if st.retry then asmLoop py ops fuel st.label_address
                  else .ok st.outputRev.reverse := rfl

theorem asmLoop_no_fuelOut (py : PyInternals) (ops : List OpElem)
    (hdisj : ∀ c, py.hasjrel.contains c = true → py.hasjabs.contains c = false)
    (hnd : (labelElems ops).Nodup) :
    ∀ (fuel : Nat) (m : List (Label × Nat)), GoodMap py ops m → BddMap ops m →
    ops.length * (6 * ops.length + 1) + 1 ≤ fuel + mapScore ops m →
    asmLoop py ops fuel m ≠ .outOfFuel := by
  intro fuel
  induction fuel with
  | zero =>
    intro m hgm hbdd hfuel
    have := mapScore_le ops m hbdd
    omega
  | succ fuel ih =>
    intro m hgm hbdd hfuel
    rw [asmLoop_succ]
    cases hpass : asmPass py ops ⟨[], 0, m, false⟩ ops with
    | error e =>
      intro hcon
      cases hcon
    | ok st =>
      dsimp only
      cases hrt : st.retry with
      | false =>
        rw [if_neg Bool.false_ne_true]
        intro hcon
        cases hcon
      | true =>
        rw [if_pos rfl]
        have hrel : MapRel m st.label_address := passPair_MapRel py ops hdisj m st hgm hpass
        have hchange : ∃ l, l ∈ labelElems ops ∧
            lookupA m l ≠ lookupA st.label_address l := by
          rcases pass_retry_change py ops m ops ⟨[], 0, m, false⟩ st hpass
            (fun l _ => rfl) hnd hrt with h1 | h1
          · cases h1
          · exact h1
        have hscore := mapScore_lt ops m st.label_address hrel hchange
        have hbdd2 := bddMap_step py ops m st hpass hbdd
        have hgm2 : GoodMap py ops st.label_address :=
          Or.inr ⟨m, st, hrel, hpass, rfl⟩
        exact ih st.label_address hgm2 hbdd2 (by omega)

theorem asmLoop_ok_inv (py : PyInternals) (ops : List OpElem) :
    ∀ (fuel : Nat) (m : List (Label × Nat)) (out : List Nat),
    asmLoop py ops fuel m = .ok out →
    ∃ mstar stf, asmPass py ops ⟨[], 0, mstar, false⟩ ops = .ok stf ∧
      stf.retry = false ∧ out = stf.outputRev.reverse := by
  intro fuel
  induction fuel with
  | zero =>
    intro m out h
    cases h
  | succ fuel ih =>
    intro m out h
    rw [asmLoop_succ] at h
    cases hpass : asmPass py ops ⟨[], 0, m, false⟩ ops with
    | error e => rw [hpass] at h; cases h
    | ok st =>
      rw [hpass] at h
      dsimp only at h
      cases hrt : st.retry with
      | true =>
        rw [hrt, if_pos rfl] at h
        exact ih st.label_address out h
      | false =>
        rw [hrt, if_neg Bool.false_ne_true] at h
        injection h with h
        exact ⟨m, st, hpass, hrt, h.symm⟩

theorem labelInOps_mem (l : Label) (ops : List OpElem)
    (h : labelInOps l ops = true) : OpElem.lbl l ∈ ops := by
  unfold labelInOps at h
  rw [List.any_eq_true] at h
  obtain ⟨e, he, hm⟩ := h
  cases e with
  | op o => cases hm
  | lbl l2 =>
    have : l2 = l := by
      exact of_decide_eq_true hm
    subst this
    exact he

theorem stepOp_emit (py : PyInternals) (ops : List OpElem) (st : AsmState) (o : Op)
    (st' : AsmState) (h : stepOp py ops st o = .ok st')
    (hres : ∀ l, labelInOps l ops = true →
      ∃ v, lookupA st.label_address l = some v) :
    ∃ k, st'.address = st.address + k ∧
      st'.outputRev.length = st.outputRev.length + k := by
  rw [stepOp.eq_def] at h
  cases hop : py.opmap o.name with
  | none => rw [hop] at h; dsimp only at h; cases h
  | some c =>
    rw [hop] at h
    dsimp only at h
    cases harg : o.arg with
    | none =>
      rw [harg] at h
      dsimp only at h
      by_cases hth : c ≥ py.have_argument
      · rw [if_pos hth] at h
        cases h
      · rw [if_neg hth] at h
        cases henc : encode_op c none with
        | error e => rw [henc] at h; cases h
        | ok bs =>
          rw [henc] at h
          dsimp only at h
          injection h with h
          subst h
          refine ⟨1, rfl, ?_⟩
          show (bs.reverse ++ st.outputRev).length = st.outputRev.length + 1
          rw [List.length_append, List.length_reverse, encode_op_none_len _ _ henc]
          omega
    | some a0 =>
      rw [harg] at h
      dsimp only at h
      by_cases hlt : c < py.have_argument
      · rw [if_pos hlt] at h
        cases h
      · rw [if_neg hlt] at h
        cases a0 with
        | int n =>
          dsimp only at h
          by_cases hj : py.hasjump c = true
          · rw [if_pos hj] at h
            cases h
          · rw [if_neg hj] at h
            obtain ⟨_, _, hsh⟩ := emitArg_shape _ _ _ _ _ h
            rcases hsh with ⟨_, ha, ho⟩ | ⟨_, ha, ho⟩
            · exact ⟨6, ha, ho⟩
            · exact ⟨3, ha, ho⟩
        | lbl l =>
          dsimp only at h
          by_cases hj : py.hasjump c = true
          · rw [if_neg (not_not_intro hj)] at h
            by_cases hin : labelInOps l ops = true
            · rw [if_neg (not_not_intro hin)] at h
              obtain ⟨v, hv⟩ := hres l hin
              rw [hv] at h
              dsimp only at h
              obtain ⟨_, _, hsh⟩ := emitArg_shape _ _ _ _ _ h
              rcases hsh with ⟨_, ha, ho⟩ | ⟨_, ha, ho⟩
              · exact ⟨6, ha, ho⟩
              · exact ⟨3, ha, ho⟩
            · rw [if_pos hin] at h
              cases h
          · rw [if_pos hj] at h
            cases h

theorem retryFree_addr_len (py : PyInternals) (ops : List OpElem) :
    ∀ (rest : List OpElem) (st st2 : AsmState),
    asmPass py ops st rest = .ok st2 → st2.retry = false →
    (∀ l, labelInOps l ops = true →
      ∃ v, lookupA st.label_address l = some v) →
    st.address = st.outputRev.length →
    st2.address = st2.outputRev.length := by
  intro rest
  induction rest with
  | nil =>
    intro st st2 h hr hres hlen
    injection h with h
    subst h
    exact hlen
  | cons e rest ih =>
    intro st st2 h hr hres hlen
    rw [asmPass_cons] at h
    cases hstep : asmStep py ops st e with
    | error e2 => rw [hstep] at h; cases h
    | ok st1 =>
      rw [hstep] at h
      cases e with
      | lbl l2 =>
        rw [asmStep] at hstep
        injection hstep with hstep
        rcases stepLbl_cases st l2 with ⟨hl2, hs⟩ | ⟨hl2, hs⟩
        · have hst1 : st1 = st := by rw [← hstep, hs]
          rw [hst1] at h
          exact ih st st2 h hr hres hlen
        · exfalso
          have hr1 : st1.retry = true := by rw [← hstep, hs]
          have := asmPass_retry_sticky py ops rest st1 st2 h hr1
          rw [this] at hr
          cases hr
      | op o =>
        rw [asmStep] at hstep
        have hmap := (stepOp_shape _ _ _ _ _ hstep).1
        obtain ⟨k, ha, ho⟩ := stepOp_emit py ops st o st1 hstep hres
        refine ih st1 st2 h hr ?_ ?_
        · intro l hl
          rw [hmap]
          exact hres l hl
        · rw [ha, ho, hlen]

theorem passN_succ (py : PyInternals) (ops : List OpElem) (n : Nat) :
    passN py ops (n + 1) =
      match passN py ops n with
      | .error e => .error e
      | .ok m =>
        match asmPass py ops ⟨[], 0, m, false⟩ ops with
        | .error e => .error e
        | .ok st => .ok st.label_address := rfl

theorem passN_MapRel (py : PyInternals) (ops : List OpElem)
    (hdisj : ∀ c, py.hasjrel.contains c = true → py.hasjabs.contains c = false) :
    ∀ (n : Nat) (m m2 : List (Label × Nat)),
    passN py ops n = .ok m → passN py ops (n + 1) = .ok m2 → MapRel m m2 := by
  intro n
  induction n with
  | zero =>
    intro m m2 h1 h2
    injection h1 with h1
    subst h1
    intro l v hv
    cases hv
  | succ n ih =>
    intro m m2 h1 h2
    have h1o := h1
    rw [passN_succ] at h2
    rw [h1] at h2
    dsimp only at h2
    cases hp2 : asmPass py ops ⟨[], 0, m, false⟩ ops with
    | error e => rw [hp2] at h2; cases h2
    | ok st2 =>
      rw [hp2] at h2
      dsimp only at h2
      injection h2 with h2
      rw [passN_succ] at h1
      cases hn : passN py ops n with
      | error e => rw [hn] at h1; cases h1
      | ok m0 =>
        rw [hn] at h1
        dsimp only at h1
        cases hp1 : asmPass py ops ⟨[], 0, m0, false⟩ ops with
        | error e => rw [hp1] at h1; cases h1
        | ok st1 =>
          rw [hp1] at h1
          dsimp only at h1
          injection h1 with h1
          have hgm : GoodMap py ops m :=
            Or.inr ⟨m0, st1, ih m0 m hn h1o, hp1, h1⟩
          have hrel := passPair_MapRel py ops hdisj m st2 hgm hp2
          rw [h2] at hrel
          exact hrel

/-- C3: across consecutive passes of assemble's while-retry loop (the
dictionary after pass n versus after pass n+1, both succeeding, under a
descriptor whose relative- and absolute-jump opcode sets are disjoint),
every Label's recorded address is monotonically non-decreasing. -/
theorem c3_label_address_monotone (py : PyInternals) (ops : List OpElem)
    (hdisj : ∀ c, py.hasjrel.contains c = true → py.hasjabs.contains c = false)
    (n : Nat) (m m2 : List (Label × Nat))
    (h1 : passN py ops n = .ok m) (h2 : passN py ops (n + 1) = .ok m2)
    (l : Label) (v v2 : Nat)
    (hv : lookupA m l = some v) (hv2 : lookupA m2 l = some v2) :
    v ≤ v2 := by
  obtain ⟨w, hw, hle, _⟩ := passN_MapRel py ops hdisj n m m2 h1 h2 l v hv
  rw [hv2] at hw
  injection hw with hw
  omega

theorem py27_disj :
    ∀ c, py27.hasjrel.contains c = true → py27.hasjabs.contains c = false := by
  intro c hc
  have hmem : c = 93 ∨ c = 110 ∨ c = 120 := by
    have hm : c ∈ py27.hasjrel := by
      simpa using hc
    simpa [py27] using hm
  rcases hmem with rfl | rfl | rfl <;> rfl

/-- Witness for C3: assembling JUMP_ABSOLUTE to a trailing label under the
2.7 descriptor; the label's address after pass 1 and after pass 2 is 3 in
both, and the theorem yields 3 ≤ 3. -/
theorem c3_witness :
    passN py27 [OpElem.op ⟨"JUMP_ABSOLUTE", some (OpArgVal.lbl ⟨0⟩)⟩,
      OpElem.lbl ⟨0⟩] 1 = .ok [(⟨0⟩, 3)] ∧
    passN py27 [OpElem.op ⟨"JUMP_ABSOLUTE", some (OpArgVal.lbl ⟨0⟩)⟩,
      OpElem.lbl ⟨0⟩] 2 = .ok [(⟨0⟩, 3)] ∧
    (3 : Nat) ≤ 3 :=
  ⟨by decide, by decide,
    c3_label_address_monotone py27
      [OpElem.op ⟨"JUMP_ABSOLUTE", some (OpArgVal.lbl ⟨0⟩)⟩, OpElem.lbl ⟨0⟩]
      py27_disj 1 [(⟨0⟩, 3)] [(⟨0⟩, 3)] (by decide) (by decide) ⟨0⟩ 3 3
      (by decide) (by decide)⟩

/-- C2 (amended): for a sequence without duplicate Label elements, under
a descriptor with disjoint relative/absolute jump sets, the while-retry
loop never runs out of the c2Bound fuel (it either raises or reaches a
fixed point), and when it returns bytes, the final pass is retry-free and
self-consistent: at every Label element of the sequence the dictionary's
recorded address equals both the pass address and the byte offset of the
output emitted so far. -/
theorem c2_bounded_fixed_point (py : PyInternals) (ops : List OpElem)
    (hdisj : ∀ c, py.hasjrel.contains c = true → py.hasjabs.contains c = false)
    (hnd : (labelElems ops).Nodup) :
    assemble ops py (c2Bound ops) ≠ .outOfFuel ∧
    ∀ out, assemble ops py (c2Bound ops) = .ok out →
      ∃ mstar stf, asmPass py ops ⟨[], 0, mstar, false⟩ ops = .ok stf ∧
        stf.retry = false ∧ out = stf.outputRev.reverse ∧
        stf.label_address = mstar ∧
        ∀ pre l post, ops = pre ++ OpElem.lbl l :: post →
          ∃ stp, asmPass py ops ⟨[], 0, mstar, false⟩ pre = .ok stp ∧
            lookupA mstar l = some stp.address ∧
            stp.address = stp.outputRev.length := by
  constructor
  · unfold assemble
    refine asmLoop_no_fuelOut py ops hdisj hnd (c2Bound ops) [] (Or.inl rfl) ?_ ?_
    · intro l v hv
      cases hv
    · rw [mapScore_nil]
      unfold c2Bound
      omega
  · intro out hok
    unfold assemble at hok
    obtain ⟨mstar, stf, hpass, hrf, hout⟩ :=
      asmLoop_ok_inv py ops (c2Bound ops) [] out hok
    have hmaps : stf.label_address = mstar :=
      (asmPass_retryFree py ops ops ⟨[], 0, mstar, false⟩ stf hpass hrf).2
    have hall : ∀ l, labelInOps l ops = true → ∃ v, lookupA mstar l = some v := by
      intro l hl
      rcases retryFree_labels py ops ops ⟨[], 0, mstar, false⟩ stf hpass hrf l
        (labelInOps_mem l ops hl) with hv | ⟨v, hv⟩
      · exact ⟨_, hv⟩
      · exact ⟨v, hv⟩
    refine ⟨mstar, stf, hpass, hrf, hout, hmaps, ?_⟩
    intro pre l post hsplit
    have hpass2 := hpass
    rw [hsplit] at hpass2
    obtain ⟨stp, hpre, hsuf⟩ := asmPass_append py (pre ++ OpElem.lbl l :: post)
      pre (OpElem.lbl l :: post) ⟨[], 0, mstar, false⟩ stf hpass2
    rw [← hsplit] at hpre hsuf
    have hstp_rf :=
      (asmPass_retryFree py ops (OpElem.lbl l :: post) stp stf hsuf hrf).1
    have hstp_map :=
      (asmPass_retryFree py ops pre ⟨[], 0, mstar, false⟩ stp hpre hstp_rf).2
    have hlen := retryFree_addr_len py ops pre ⟨[], 0, mstar, false⟩ stp
      hpre hstp_rf hall rfl
    rw [asmPass_cons] at hsuf
    cases hstep : asmStep py ops stp (.lbl l) with
    | error e2 => rw [hstep] at hsuf; cases hsuf
    | ok st1 =>
      rw [hstep] at hsuf
      rw [asmStep] at hstep
      injection hstep with hstep
      rcases stepLbl_cases stp l with ⟨hl2, hs⟩ | ⟨hl2, hs⟩
      · rw [hstp_map] at hl2
        exact ⟨stp, hpre, hl2, hlen⟩
      · exfalso
        have hr1 : st1.retry = true := by
          rw [← hstep, hs]
        have hsticky := asmPass_retry_sticky py ops post st1 stf hsuf hr1
        rw [hsticky] at hrf
        cases hrf

/-- Witness for C2 at JUMP_ABSOLUTE-to-label-then-RETURN under the 2.7
descriptor: the loop reaches its fixed point within the bound and the
label's recorded address 3 equals the byte offset of the emitted prefix. -/
theorem c2_witness :
    ∃ mstar stf, asmPass py27 [OpElem.op ⟨"JUMP_ABSOLUTE", some (OpArgVal.lbl ⟨0⟩)⟩,
        OpElem.lbl ⟨0⟩, OpElem.op ⟨"RETURN_VALUE", none⟩]
        ⟨[], 0, mstar, false⟩
        [OpElem.op ⟨"JUMP_ABSOLUTE", some (OpArgVal.lbl ⟨0⟩)⟩,
        OpElem.lbl ⟨0⟩, OpElem.op ⟨"RETURN_VALUE", none⟩] = .ok stf ∧
      stf.retry = false ∧ [113, 3, 0, 83] = stf.outputRev.reverse ∧
      stf.label_address = mstar ∧
      ∀ pre l post, [OpElem.op ⟨"JUMP_ABSOLUTE", some (OpArgVal.lbl ⟨0⟩)⟩,
          OpElem.lbl ⟨0⟩, OpElem.op ⟨"RETURN_VALUE", none⟩]
          = pre ++ OpElem.lbl l :: post →
        ∃ stp, asmPass py27 [OpElem.op ⟨"JUMP_ABSOLUTE", some (OpArgVal.lbl ⟨0⟩)⟩,
            OpElem.lbl ⟨0⟩, OpElem.op ⟨"RETURN_VALUE", none⟩]
            ⟨[], 0, mstar, false⟩ pre = .ok stp ∧
          lookupA mstar l = some stp.address ∧
          stp.address = stp.outputRev.length :=
  (c2_bounded_fixed_point py27
    [OpElem.op ⟨"JUMP_ABSOLUTE", some (OpArgVal.lbl ⟨0⟩)⟩,
      OpElem.lbl ⟨0⟩, OpElem.op ⟨"RETURN_VALUE", none⟩]
    py27_disj (by decide)).2 [113, 3, 0, 83] (by decide)

end Pwny
